import Mathlib

/-!
# A shallow embedding of the `lsh` command interpreter (`src/main.c`)

The interpreter reads a line (`read_line`), splits it into an argument vector
(`split_line`), dispatches it (`execute`) to a builtin (`lsh_cd`, `lsh_help`,
`lsh_exit`) or to the process launcher (`launch`), and repeats (`loop`).

Conventions of the embedding.

* A C string is the list of its characters before the terminating NUL (`CStr`);
  a `char *` that may be `NULL` is an `Option CStr` (`CharPtr`).
* A heap block is a list of cells (`Mem`); a cell that was never written is
  `none`.  A store outside the block, a load of a cell outside the block or of a
  cell never written, and an overflowing `int` addition are undefined behaviour
  (`Result.undefined`).
* `int` is the 32-bit type of the platforms the program targets (`INT_MAX`).
* Everything the operating system decides (allocation, `chdir`, `fork`,
  `execvp`, the statuses `waitpid` reports) is read from an `Env`.
* The state of the process that the program can observe or change is a `World`.
-/

namespace Lsh

/-! ## Data model -/

/-- The characters of a C string, terminator excluded. -/
abbrev CStr := List Char

/-- A value of C type `char *`; `none` is `NULL`. -/
abbrev CharPtr := Option CStr

/-- A heap block of cells of type `α`; `none` is a cell that was never written. -/
abbrev Mem (α : Type) := List (Option α)

/-- Largest value of C type `int` (32 bits). -/
def INT_MAX : Nat := 2147483647

/-- The C constant `EXIT_SUCCESS`. -/
def EXIT_SUCCESS : Int := 0

/-- The C constant `EXIT_FAILURE`. -/
def EXIT_FAILURE : Int := 1

/-- The string terminator, written `'\0'` in C. -/
def NUL : Char := Char.ofNat 0

/-- Size in bytes of a `char *` (LP64). -/
def SIZEOF_PTR : Nat := 8

/-- The status word filled in by `waitpid(pid, &status, WUNTRACED)`. -/
inductive WaitStatus where
  | exited (code : Nat)
  | signaled (sig : Nat)
  | stopped (sig : Nat)
  deriving DecidableEq

/-- The C macro `WIFEXITED`. -/
def WIFEXITED : WaitStatus → Bool
  | .exited _ => true
  | _ => false

/-- The C macro `WIFSIGNALED`. -/
def WIFSIGNALED : WaitStatus → Bool
  | .signaled _ => true
  | _ => false

/-- What `fork()` gives the calling process.
* `child`: the call returned `0`, this process is the new child;
* `failed e`: the call returned a negative value and set `errno` to `e`;
* `parent pid reports`: the call returned the positive `pid` of the child, and
  `reports` are the status changes of that child that `waitpid` will deliver,
  in order (when they are used up `waitpid` does not return). -/
inductive ForkResult where
  | child
  | failed (errno : Nat)
  | parent (pid : Nat) (reports : List WaitStatus)
  deriving DecidableEq

/-- System calls made by the process, in the order they were made. -/
inductive Event where
  | chdir (path : CStr)
  | fork
  | execvp (file : CStr) (args : Mem CharPtr)
  | waitpid (pid : Nat)
  deriving DecidableEq

/-- The state of the interpreter process.
`stdin` is the input not yet read (the empty list is end-of-input),
`stdout` and `stderr` are what has been written so far, `cwd` names the working
directory, `trace` records the system calls made. -/
structure World where
  stdin : List Char
  stdout : List Char
  stderr : List Char
  cwd : CStr
  errno : Nat
  trace : List Event
  deriving DecidableEq

/-- The operating system, as far as the program depends on it.
* `alloc n`: does an allocation request of `n` bytes succeed;
* `chdir w p`: the directory that path `p` names in state `w`, or the `errno`
  of the failure;
* `fork w`: the outcome of `fork()`;
* `execvp w file args`: `none` when the program image is replaced, otherwise
  the `errno` with which `execvp` returns `-1`;
* `strerror e`: the message for `errno` value `e`. -/
structure Env where
  alloc : Nat → Bool
  chdir : World → CStr → Except Nat CStr
  fork : World → ForkResult
  execvp : World → CStr → Mem CharPtr → Option Nat
  strerror : Nat → List Char

/-- How a call of a C function ends.
* `ret v w`: it returned `v` in state `w`;
* `exited s w`: it called `exit(s)`;
* `exec file args w`: `execvp` replaced the program image;
* `blocked w`: it waits in `waitpid` forever;
* `undefined`: undefined behaviour;
* `outOfFuel`: the iteration bound given to the model was used up. -/
inductive Result (α : Type) where
  | ret (val : α) (w : World)
  | exited (status : Int) (w : World)
  | exec (file : CStr) (args : Mem CharPtr) (w : World)
  | blocked (w : World)
  | undefined
  | outOfFuel
  deriving DecidableEq

/-- Sequencing of calls: continue with `f` when the first call returned. -/
def Result.bind {α β : Type} (r : Result α) (f : α → World → Result β) : Result β :=
  match r with
  | .ret v w => f v w
  | .exited s w => .exited s w
  | .exec file args w => .exec file args w
  | .blocked w => .blocked w
  | .undefined => .undefined
  | .outOfFuel => .outOfFuel

/-- Addition on `int`: `none` when the mathematical sum is not representable. -/
def int_add (a b : Nat) : Option Nat :=
  if a + b ≤ INT_MAX then some (a + b) else none

/-- The block returned by a successful `malloc` of `n` cells. -/
def malloc {α : Type} (n : Nat) : Mem α := List.replicate n none

/-- The block returned by a successful `realloc` to `n` cells: the old contents
up to `n`, then fresh cells. -/
def realloc {α : Type} (m : Mem α) (n : Nat) : Mem α :=
  m.take n ++ List.replicate (n - m.length) none

/-- The assignment `m[i] = x`; `none` when `i` is outside the block. -/
def store {α : Type} (m : Mem α) (i : Nat) (x : α) : Option (Mem α) :=
  if i < m.length then some (m.set i (some x)) else none

/-- The value of `m[i]`; `none` when `i` is outside the block or the cell was
never written. -/
def load {α : Type} (m : Mem α) (i : Nat) : Option α :=
  (m.get? i).join

/-- The C string that starts at the beginning of a block of characters;
`none` when no terminator is met before an unwritten cell or the end of the
block. -/
def cstr : Mem Char → Option CStr
  | [] => none
  | none :: _ => none
  | some c :: m => if c = NUL then some [] else (cstr m).map (fun s => c :: s)

/-- The call `fprintf(stderr, msg)` or `perror`, as an append to the error stream. -/
def eprint (msg : List Char) (w : World) : World :=
  { w with stderr := w.stderr ++ msg }

/-- The call `printf(msg)`, as an append to standard output. -/
def print (msg : List Char) (w : World) : World :=
  { w with stdout := w.stdout ++ msg }

/-- The call `perror(s)`: `s`, a colon and a blank, the message of the current
`errno`, a newline, on the error stream. -/
def perror (env : Env) (s : List Char) (w : World) : World :=
  eprint (s ++ ": ".toList ++ env.strerror w.errno ++ "\n".toList) w

/-! ## Line reader (`src/main.c`, lines 9-50) -/

/-- The C macro `LSH_RL_BUFSIZE`. -/
def LSH_RL_BUFSIZE : Nat := 1024

/-- The local variables of `read_line` when it returns. -/
structure LineBuf where
  bufsize : Nat
  position : Nat
  buffer : Mem Char
  deriving DecidableEq

/-- The `while (1)` loop of `read_line`.  The stream argument is the input not
yet consumed by `getchar()`; the empty stream is `EOF`. -/
def read_line_loop (env : Env) :
    Nat → Nat → Mem Char → List Char → World → Result LineBuf
  | bufsize, position, buffer, [], w =>
    -- c == EOF
    match store buffer position NUL with
    | none => .undefined
    | some buffer => .ret ⟨bufsize, position, buffer⟩ { w with stdin := [] }
  | bufsize, position, buffer, c :: rest, w =>
    if c = '\n' then
      match store buffer position NUL with
      | none => .undefined
      | some buffer => .ret ⟨bufsize, position, buffer⟩ { w with stdin := rest }
    else
      match store buffer position c with
      | none => .undefined
      | some buffer =>
        match int_add position 1 with
        | none => .undefined
        | some position =>
          if position ≥ bufsize then
            match int_add bufsize LSH_RL_BUFSIZE with
            | none => .undefined
            | some bufsize =>
              if env.alloc bufsize then
                read_line_loop env bufsize position (realloc buffer bufsize) rest w
              else
                .exited EXIT_FAILURE
                  (eprint "Error reallocating buffer space\n".toList { w with stdin := rest })
          else
            read_line_loop env bufsize position buffer rest w

/-- The function `read_line`, with all its local variables as the result. -/
def read_line_state (env : Env) (w : World) : Result LineBuf :=
  if env.alloc LSH_RL_BUFSIZE then
    read_line_loop env LSH_RL_BUFSIZE 0 (malloc LSH_RL_BUFSIZE) w.stdin w
  else
    .exited EXIT_FAILURE (eprint "Error allocating buffer space\n".toList w)

/-- The function `read_line`: the block it returns a pointer to. -/
def read_line (env : Env) (w : World) : Result (Mem Char) :=
  (read_line_state env w).bind fun st w => .ret st.buffer w

/-! ## Tokenizer (`src/main.c`, lines 52-86) -/

/-- The C macro `LSH_TOK_BUFSIZE`. -/
def LSH_TOK_BUFSIZE : Nat := 64

/-- The C macro `LSH_TOK_DELIM`: blank, tab, carriage return, newline, bell. -/
def LSH_TOK_DELIM : List Char := [' ', '\t', '\r', '\n', Char.ofNat 7]

/-- The C library function `strtok(str, delim)`, with the position it keeps
between calls made explicit: `save` is the string at the saved position, the
second component of the result is the string at the new saved position.
It skips the leading characters that are in `delim`; at the end of the string
it returns `NULL`; otherwise the token runs up to the next character in
`delim` (which is overwritten by a terminator and skipped) or to the end. -/
def strtok (str : Option CStr) (delim : List Char) (save : CStr) : CharPtr × CStr :=
  match (str.getD save).dropWhile (fun c => delim.contains c) with
  | [] => (none, [])
  | c :: s =>
    (some ((c :: s).takeWhile (fun c => !delim.contains c)),
      ((c :: s).dropWhile (fun c => !delim.contains c)).tail)

/-- The local variables of `split_line` when it returns. -/
structure TokBuf where
  bufsize : Nat
  position : Nat
  tokens : Mem CharPtr
  deriving DecidableEq

/-- The `while (token != NULL)` loop of `split_line` and the two statements
after it.  The first argument bounds the number of loop tests. -/
def split_line_loop (env : Env) :
    Nat → Nat → Nat → Mem CharPtr → CharPtr → CStr → World → Result TokBuf
  | 0, _, _, _, _, _, _ => .outOfFuel
  | fuel + 1, bufsize, position, tokens, token, save, w =>
    match token with
    | none =>
      match store tokens position none with
      | none => .undefined
      | some tokens => .ret ⟨bufsize, position, tokens⟩ w
    | some t =>
      match store tokens position (some t) with
      | none => .undefined
      | some tokens =>
        match int_add position 1 with
        | none => .undefined
        | some position =>
          if position ≥ bufsize then
            match int_add bufsize LSH_TOK_BUFSIZE with
            | none => .undefined
            | some bufsize =>
              if env.alloc (bufsize * SIZEOF_PTR) then
                split_line_loop env fuel bufsize position (realloc tokens bufsize)
                  (strtok none LSH_TOK_DELIM save).1 (strtok none LSH_TOK_DELIM save).2 w
              else
                .exited EXIT_FAILURE (eprint "Allocation error\n".toList w)
          else
            split_line_loop env fuel bufsize position tokens
              (strtok none LSH_TOK_DELIM save).1 (strtok none LSH_TOK_DELIM save).2 w

/-- The function `split_line`, with all its local variables as the result.
The loop test is evaluated at most once per character of the line and once
more, which is the bound given to the loop. -/
def split_line_state (env : Env) (line : CStr) (w : World) : Result TokBuf :=
  if env.alloc (LSH_TOK_BUFSIZE * SIZEOF_PTR) then
    split_line_loop env (line.length + 1) LSH_TOK_BUFSIZE 0 (malloc LSH_TOK_BUFSIZE)
      (strtok (some line) LSH_TOK_DELIM []).1 (strtok (some line) LSH_TOK_DELIM []).2 w
  else
    .exited EXIT_FAILURE (eprint "Allocation error\n".toList w)

/-- The function `split_line`: the block it returns a pointer to. -/
def split_line (env : Env) (line : CStr) (w : World) : Result (Mem CharPtr) :=
  (split_line_state env line w).bind fun st w => .ret st.tokens w

/-! ## Process launcher (`src/main.c`, lines 88-118) -/

/-- The `do ... while (!WIFEXITED(status) && !WIFSIGNALED(status))` loop of
`launch`, over the status changes the child will report.  `waitpid` is taken
to succeed: `pid` is an unreaped child of the caller and the program installs
no signal handler. -/
def wait_loop (pid : Nat) : List WaitStatus → World → Result Unit
  | [], w => .blocked { w with trace := w.trace ++ [.waitpid pid] }
  | status :: reports, w =>
    if !WIFEXITED status && !WIFSIGNALED status then
      wait_loop pid reports { w with trace := w.trace ++ [.waitpid pid] }
    else
      .ret () { w with trace := w.trace ++ [.waitpid pid] }

/-- The function `launch`.  The three branches on the sign of `pid` are the
three constructors of `ForkResult`. -/
def launch (env : Env) (args : Mem CharPtr) (w : World) : Result Int :=
  let w1 : World := { w with trace := w.trace ++ [.fork] }
  match env.fork w with
  | .child =>
    match load args 0 with
    | none => .undefined
    | some none => .undefined
    | some (some file) =>
      let w2 : World := { w1 with trace := w1.trace ++ [.execvp file args] }
      match env.execvp w1 file args with
      | none => .exec file args w2
      | some e => .exited EXIT_FAILURE (perror env "lsh".toList { w2 with errno := e })
  | .failed e => .ret 1 (perror env "lsh".toList { w1 with errno := e })
  | .parent pid reports => (wait_loop pid reports w1).bind fun _ w => .ret 1 w

/-! ## Builtins (`src/main.c`, lines 138-174) -/

/-- The array `builtin_str`. -/
def builtin_str : List CStr := ["cd".toList, "help".toList, "exit".toList]

/-- The function `lsh_num_builtins`. -/
def lsh_num_builtins : Nat := builtin_str.length

/-- The function `lsh_cd`. -/
def lsh_cd (env : Env) (args : Mem CharPtr) (w : World) : Result Int :=
  match load args 1 with
  | none => .undefined
  | some none => .ret 1 (eprint "Expected argument to \"cd\"\n".toList w)
  | some (some path) =>
    let w1 : World := { w with trace := w.trace ++ [.chdir path] }
    match env.chdir w path with
    | .ok dir => .ret 1 { w1 with cwd := dir }
    | .error e => .ret 1 (perror env "lsh".toList { w1 with errno := e })

/-- The `for` loop of `lsh_help`, from index `i` on; the first argument is the
number of iterations left. -/
def lsh_help_loop : Nat → Nat → World → World
  | 0, _, w => w
  | n + 1, i, w =>
    lsh_help_loop n (i + 1) (print ("\t".toList ++ builtin_str.getD i [] ++ "\n".toList) w)

/-- The function `lsh_help`. -/
def lsh_help (w : World) : Result Int :=
  let w := print "Welcome to my shell\n".toList w
  let w := print "Type program name and arguments and hit ENTER\n".toList w
  let w := print "The following commands are built in:\n".toList w
  let w := lsh_help_loop lsh_num_builtins 0 w
  let w := print "Use the \"man\" command for information about other programs\n".toList w
  .ret 1 w

/-- The function `lsh_exit`. -/
def lsh_exit (w : World) : Result Int := .ret 0 w

/-- The array `builtin_func`; `lsh_help` and `lsh_exit` take no argument. -/
def builtin_func : List (Env → Mem CharPtr → World → Result Int) :=
  [lsh_cd, fun _ _ w => lsh_help w, fun _ _ w => lsh_exit w]

/-! ## Dispatcher and command loop (`src/main.c`, lines 176-210) -/

/-- The C library function `strcmp`, as far as its result is compared with `0`. -/
def strcmp (a b : CStr) : Int := if a = b then 0 else 1

/-- The `for` loop of `execute` from index `i` on, and the call of `launch`
after it; the first argument is the number of iterations left. -/
def execute_loop (env : Env) (args : Mem CharPtr) (arg0 : CStr) :
    Nat → Nat → World → Result Int
  | 0, _, w => launch env args w
  | n + 1, i, w =>
    match builtin_str.get? i, builtin_func.get? i with
    | some name, some func =>
      if strcmp arg0 name = 0 then func env args w
      else execute_loop env args arg0 n (i + 1) w
    | _, _ => .undefined

/-- The function `execute`. -/
def execute (env : Env) (args : Mem CharPtr) (w : World) : Result Int :=
  match load args 0 with
  | none => .undefined
  | some none => .ret 1 w
  | some (some arg0) => execute_loop env args arg0 lsh_num_builtins 0 w

/-- The variable `PROMPT`. -/
def PROMPT : List Char := "> ".toList

/-- The `do ... while (status)` loop of `loop`; the first argument bounds the
number of iterations. -/
def loop (env : Env) : Nat → World → Result Unit
  | 0, _ => .outOfFuel
  | fuel + 1, w =>
    (read_line env (print PROMPT w)).bind fun line w =>
      match cstr line with
      | none => .undefined
      | some s =>
        (split_line env s w).bind fun args w =>
          (execute env args w).bind fun status w =>
            if status ≠ 0 then loop env fuel w else .ret () w

/-- The function `main`; the value it returns is the exit status of the process. -/
def main (env : Env) (fuel : Nat) (w : World) : Result Int :=
  (loop env fuel w).bind fun _ w => .ret EXIT_SUCCESS w

/-! ## Vocabulary of the specification -/

/-- The cells of a well-formed argument vector: the tokens in order, the `NULL`
sentinel, then whatever the rest of the block holds. -/
def argv (ts : List CStr) (rest : Mem CharPtr) : Mem CharPtr :=
  ts.map (fun t => some (some t)) ++ some none :: rest

/-- The maximal runs of non-delimiter characters of a line, left to right:
the pieces between consecutive delimiters, the empty ones dropped. -/
def maximal_runs (line : CStr) : List CStr :=
  (line.splitOnP (fun c => LSH_TOK_DELIM.contains c)).filter (fun t => t ≠ [])

/-- The line made of a leading gap and then each token followed by its gap. -/
def weave (gap0 : CStr) (tokens gaps : List CStr) : CStr :=
  gap0 ++ (List.zipWith (fun t g => t ++ g) tokens gaps).flatten

/-- The characters of a stream that precede its first newline or its end. -/
def first_line (s : List Char) : List Char := s.takeWhile (fun c => c ≠ '\n')

/-- The stream that is left when its first line and the newline that ends it
have been read. -/
def after_line (s : List Char) : List Char := (s.dropWhile (fun c => c ≠ '\n')).tail

/-- The line of `k` tokens `a`, each followed by one blank. -/
def many_tokens : Nat → CStr
  | 0 => []
  | k + 1 => 'a' :: ' ' :: many_tokens k

/-- The C string that `loop` hands to `split_line` when the input is `s`: the
first line, up to its first NUL when it holds one. -/
def input_line (s : List Char) : CStr := (first_line s).takeWhile (fun c => c ≠ NUL)

/-- The lines `split_line` is given: its only caller, `loop`, passes the C
string at the block that `read_line` returned, in some state of some operating
system. -/
def received (line : CStr) : Prop :=
  ∃ (env : Env) (w : World) (buffer : Mem Char) (w1 : World),
    read_line env w = .ret buffer w1 ∧ cstr buffer = some line

/-- Does the caller of `fork()` get control back from `launch`: process
creation failed, or the caller is the parent and the child's reports hold a
status that is exited or signaled. -/
def parent_resumes : ForkResult → Bool
  | .child => false
  | .failed _ => true
  | .parent _ reports => reports.any (fun s => WIFEXITED s || WIFSIGNALED s)

/-- Dispatching the same argument vector `n` times in a row; the result is that
of the last dispatch. -/
def dispatch_times (env : Env) (args : Mem CharPtr) : Nat → World → Result Int
  | 0, w => .ret 1 w
  | n + 1, w => (dispatch_times env args n w).bind fun _ w => execute env args w

/-- The lines of a text: the pieces between its newlines. -/
def lines (text : List Char) : List (List Char) := text.splitOnP (fun c => c = '\n')

/-- The number of places at which `pat` occurs in `text`. -/
def occurrences (pat text : List Char) : Nat :=
  (text.tails.filter (fun t => pat.isPrefixOf t)).length

/-- Does no line of the stream call `exit`: every line is below the `int`
range of `read_line` and the first token of the C string it gives is not
`exit`. -/
def no_exit_command (s : List Char) : Bool :=
  (lines s).all fun l =>
    decide (l.length < 2147482624)
      && decide ((maximal_runs (l.takeWhile (fun c => c ≠ NUL))).head? ≠ some "exit".toList)

/-- The text that `help` adds to standard output: three lines of banner, the
names of the builtins, a closing line. -/
def help_text : List Char :=
  ("Welcome to my shell\nType program name and arguments and hit ENTER\n"
    ++ "The following commands are built in:\n\tcd\n\thelp\n\texit\n"
    ++ "Use the \"man\" command for information about other programs\n").toList

/-- The system calls of a trace that create a process. -/
def forks (trace : List Event) : Nat := trace.count .fork

/-- A small operating system: allocation succeeds, the directories are `/` and
`/tmp` (any other path fails with `errno` 2), `fork` gives the parent a child
that exits with status 0, `execvp` replaces the image. -/
def sample_env : Env where
  alloc := fun _ => true
  chdir := fun _ p => if p = "/tmp".toList ∨ p = "/".toList then .ok p else .error 2
  fork := fun _ => .parent 1 [.exited 0]
  execvp := fun _ _ _ => none
  strerror := fun e => if e = 2 then "No such file or directory".toList else "Error".toList

/-- The small operating system as the child created by `fork` sees it, with no
program to execute: `fork` returned 0 and `execvp` fails with `errno` 2. -/
def child_env : Env :=
  { sample_env with fork := fun _ => .child, execvp := fun _ _ _ => some 2 }

/-- A fresh process state with the given input. -/
def world0 (input : List Char) : World where
  stdin := input
  stdout := []
  stderr := []
  cwd := "/".toList
  errno := 0
  trace := []

/-! ## Heap blocks -/

theorem set_written_end {α : Type} (ds : List α) (k : Nat) (x : α) :
    (ds.map some ++ List.replicate (k + 1) none).set ds.length (some x)
      = (ds ++ [x]).map some ++ List.replicate k none := by
  induction ds with
  | nil => simp [List.replicate_succ]
  | cons d ds ih => simpa using ih

theorem store_written_end {α : Type} (ds : List α) (k : Nat) (x : α) (hk : 0 < k) :
    store (ds.map some ++ List.replicate k none) ds.length x
      = some ((ds ++ [x]).map some ++ List.replicate (k - 1) none) := by
  obtain ⟨j, rfl⟩ : ∃ j, k = j + 1 := ⟨k - 1, by omega⟩
  have hlen : ds.length < (ds.map some ++ List.replicate (j + 1) (none : Option α)).length := by
    simp
  unfold store
  rw [if_pos hlen, set_written_end]
  simp

theorem store_written_full {α : Type} (ds : List α) (x : α) :
    store (ds.map some) ds.length x = none := by
  simp [store]

theorem realloc_written {α : Type} (ds : List α) (k n : Nat) (h : ds.length + k ≤ n) :
    realloc (ds.map some ++ List.replicate k none) n
      = ds.map some ++ List.replicate (n - ds.length) none := by
  unfold realloc
  rw [List.take_of_length_le (by simpa using h)]
  simp only [List.length_append, List.length_map, List.length_replicate, List.append_assoc,
    List.append_replicate_replicate]
  congr 2
  omega

theorem cstr_written (s : List Char) (tail : Mem Char) (h : NUL ∉ s) :
    cstr (s.map some ++ some NUL :: tail) = some s := by
  induction s with
  | nil => simp [cstr]
  | cons c s ih =>
    have hc : c ≠ NUL := fun e => h (by simp [e])
    have hs : NUL ∉ s := fun e => h (by simp [e])
    simp [cstr, hc, ih hs]

/-! ## Line reader -/

theorem int_add_eq (a b : Nat) (h : a + b ≤ 2147483647) : int_add a b = some (a + b) := by
  simp [int_add, INT_MAX, h]

theorem int_add_overflow (a b : Nat) (h : 2147483647 < a + b) : int_add a b = none := by
  simp [int_add, INT_MAX]; omega

/-- Loop invariant of `read_line`: with `ds` stored so far and the capacity grown
in steps of 1024, reading a line `l` that stays below the `int` range ends with
`ds ++ l` and the terminator in the block. -/
theorem read_line_loop_ok (env : Env) (hA : ∀ n, env.alloc n = true) (term : List Char)
    (hterm : term = [] ∨ term.head? = some '\n') (w : World) :
    ∀ (l ds : List Char) (bufsize position : Nat) (buffer : Mem Char),
      '\n' ∉ l → position = ds.length → bufsize = 1024 * (position / 1024 + 1) →
      buffer = ds.map some ++ List.replicate (bufsize - position) none →
      position + l.length < 2147482624 →
      read_line_loop env bufsize position buffer (l ++ term) w
        = .ret ⟨1024 * ((position + l.length) / 1024 + 1), position + l.length,
            (ds ++ l ++ [NUL]).map some
              ++ List.replicate (1024 * ((position + l.length) / 1024 + 1)
                  - (position + l.length) - 1) none⟩
            { w with stdin := term.tail } := by
  intro l
  induction l with
  | nil =>
    intro ds bufsize position buffer _ hpos hsz hbuf hlt
    have hst : store buffer position NUL
        = some ((ds ++ [NUL]).map some ++ List.replicate (bufsize - position - 1) none) := by
      rw [hbuf, hpos]; exact store_written_end ds _ NUL (by omega)
    rcases hterm with rfl | hterm
    · simp [read_line_loop, hst, hsz]
    · obtain ⟨r, rfl⟩ : ∃ r, term = '\n' :: r := by
        cases term with
        | nil => simp at hterm
        | cons c r => simp at hterm; exact ⟨r, by rw [hterm]⟩
      simp [read_line_loop, hst, hsz]
  | cons c l ih =>
    intro ds bufsize position buffer hnl hpos hsz hbuf hlt
    have hc : c ≠ '\n' := fun e => hnl (by simp [e])
    have hl : '\n' ∉ l := fun e => hnl (by simp [e])
    simp only [List.length_cons] at hlt
    have hst : store buffer position c
        = some ((ds ++ [c]).map some ++ List.replicate (bufsize - position - 1) none) := by
      rw [hbuf, hpos]; exact store_written_end ds _ c (by omega)
    have hadd : int_add position 1 = some (position + 1) := int_add_eq _ _ (by omega)
    simp only [List.cons_append, read_line_loop, if_neg hc, hst, hadd, List.append_eq]
    by_cases hge : position + 1 ≥ bufsize
    · have hadd2 : int_add bufsize LSH_RL_BUFSIZE = some (bufsize + 1024) := by
        unfold LSH_RL_BUFSIZE; exact int_add_eq _ _ (by omega)
      rw [if_pos hge]
      simp only [hadd2, hA, if_true]
      have hre : realloc ((ds ++ [c]).map some ++ List.replicate (bufsize - position - 1) none)
          (bufsize + 1024)
          = (ds ++ [c]).map some ++ List.replicate (bufsize + 1024 - (position + 1)) none := by
        rw [realloc_written _ _ _ (by simp; omega)]; simp [hpos]
      rw [hre, ih (ds ++ [c]) (bufsize + 1024) (position + 1) _ hl (by simp [hpos])
        (by omega) rfl (by omega)]
      have e : position + 1 + l.length = position + (l.length + 1) := by omega
      simp [e]
    · rw [if_neg hge]
      have hb : bufsize - position - 1 = bufsize - (position + 1) := by omega
      rw [hb, ih (ds ++ [c]) bufsize (position + 1) _ hl (by simp [hpos])
        (by omega) rfl (by omega)]
      have e : position + 1 + l.length = position + (l.length + 1) := by omega
      simp [e]

theorem read_line_loop_overflow (env : Env) (hA : ∀ n, env.alloc n = true) (term : List Char)
    (w : World) :
    ∀ (l ds : List Char) (bufsize position : Nat) (buffer : Mem Char),
      '\n' ∉ l → position = ds.length → bufsize = 1024 * (position / 1024 + 1) →
      bufsize ≤ 2147482624 →
      buffer = ds.map some ++ List.replicate (bufsize - position) none →
      2147482624 ≤ position + l.length →
      read_line_loop env bufsize position buffer (l ++ term) w = .undefined := by
  intro l
  induction l with
  | nil =>
    intro ds bufsize position buffer _ hpos hsz hmax hbuf hge
    simp only [List.length_nil] at hge
    omega
  | cons c l ih =>
    intro ds bufsize position buffer hnl hpos hsz hmax hbuf hlen
    have hc : c ≠ '\n' := fun e => hnl (by simp [e])
    have hl : '\n' ∉ l := fun e => hnl (by simp [e])
    simp only [List.length_cons] at hlen
    have hst : store buffer position c
        = some ((ds ++ [c]).map some ++ List.replicate (bufsize - position - 1) none) := by
      rw [hbuf, hpos]; exact store_written_end ds _ c (by omega)
    have hadd : int_add position 1 = some (position + 1) := int_add_eq _ _ (by omega)
    simp only [List.cons_append, read_line_loop, if_neg hc, hst, hadd, List.append_eq]
    by_cases hge : position + 1 ≥ bufsize
    · rw [if_pos hge]
      by_cases hov : bufsize = 2147482624
      · have hadd2 : int_add bufsize LSH_RL_BUFSIZE = none := by
          unfold LSH_RL_BUFSIZE; exact int_add_overflow _ _ (by omega)
        simp only [hadd2]
      · have hadd2 : int_add bufsize LSH_RL_BUFSIZE = some (bufsize + 1024) := by
          unfold LSH_RL_BUFSIZE; exact int_add_eq _ _ (by omega)
        simp only [hadd2, hA, if_true]
        have hre : realloc ((ds ++ [c]).map some ++ List.replicate (bufsize - position - 1) none)
            (bufsize + 1024)
            = (ds ++ [c]).map some ++ List.replicate (bufsize + 1024 - (position + 1)) none := by
          rw [realloc_written _ _ _ (by simp; omega)]; simp [hpos]
        rw [hre]
        exact ih (ds ++ [c]) (bufsize + 1024) (position + 1) _ hl (by simp [hpos])
          (by omega) (by omega) rfl (by omega)
    · rw [if_neg hge]
      have hb : bufsize - position - 1 = bufsize - (position + 1) := by omega
      rw [hb]
      exact ih (ds ++ [c]) bufsize (position + 1) _ hl (by simp [hpos])
        (by omega) hmax rfl (by omega)

theorem newline_not_mem_takeWhile (s : List Char) :
    '\n' ∉ s.takeWhile (fun c => c ≠ '\n') := by
  intro h
  have := List.mem_takeWhile_imp h
  simp at this

theorem dropWhile_newline (s : List Char) :
    s.dropWhile (fun c => c ≠ '\n') = [] ∨ (s.dropWhile (fun c => c ≠ '\n')).head? = some '\n' := by
  induction s with
  | nil => simp
  | cons c s ih =>
    by_cases hc : c = '\n'
    · right; simp [hc]
    · simpa [List.dropWhile_cons, hc] using ih

/-- What `read_line` does on every stream whose first line is below the `int`
range, allocation succeeding. -/
theorem read_line_state_ok (env : Env) (hA : ∀ n, env.alloc n = true) (w : World)
    (hlen : (first_line w.stdin).length < 2147482624) :
    read_line_state env w
      = .ret ⟨1024 * ((first_line w.stdin).length / 1024 + 1), (first_line w.stdin).length,
            (first_line w.stdin ++ [NUL]).map some
              ++ List.replicate (1024 * ((first_line w.stdin).length / 1024 + 1)
                  - (first_line w.stdin).length - 1) none⟩
          { w with stdin := after_line w.stdin } := by
  unfold first_line after_line at *
  have h := read_line_loop_ok env hA (w.stdin.dropWhile (fun c => c ≠ '\n'))
    (dropWhile_newline _) w (w.stdin.takeWhile (fun c => c ≠ '\n')) [] LSH_RL_BUFSIZE 0
    (malloc LSH_RL_BUFSIZE) (newline_not_mem_takeWhile _) rfl rfl rfl (by simpa using hlen)
  rw [List.takeWhile_append_dropWhile] at h
  simp only [Nat.zero_add, List.nil_append] at h
  unfold read_line_state
  rw [if_pos (hA _)]
  exact h

/-! ## Tokenizer -/

theorem splitOnP_eq_takeWhile_cons (p : Char → Bool) (l : List Char) :
    l.splitOnP p = l.takeWhile (fun c => !p c) ::
      (match l.dropWhile (fun c => !p c) with
        | [] => []
        | _ :: r => r.splitOnP p) := by
  induction l with
  | nil => simp
  | cons x xs ih =>
    rw [List.splitOnP_cons]
    by_cases hx : p x = true
    · simp [hx]
    · simp only [hx, Bool.false_eq_true, if_false]
      rw [ih]
      simp [List.modifyHead, List.takeWhile_cons, List.dropWhile_cons, hx]

theorem maximal_runs_nil : maximal_runs [] = [] := by
  simp [maximal_runs]

theorem maximal_runs_cons_delim (c : Char) (s : CStr) (hc : LSH_TOK_DELIM.contains c = true) :
    maximal_runs (c :: s) = maximal_runs s := by
  simp only [maximal_runs, List.splitOnP_cons, hc, if_true]
  simp [List.filter_cons]

theorem maximal_runs_dropWhile (s : CStr) :
    maximal_runs (s.dropWhile (fun c => LSH_TOK_DELIM.contains c)) = maximal_runs s := by
  induction s with
  | nil => rfl
  | cons c s ih =>
    by_cases hc : LSH_TOK_DELIM.contains c = true
    · rw [List.dropWhile_cons_of_pos hc, ih, maximal_runs_cons_delim c s hc]
    · rw [List.dropWhile_cons_of_neg hc]

theorem maximal_runs_cons_tok (c : Char) (s : CStr) (hc : ¬ LSH_TOK_DELIM.contains c = true) :
    maximal_runs (c :: s)
      = (c :: s).takeWhile (fun c => !LSH_TOK_DELIM.contains c) ::
          maximal_runs (((c :: s).dropWhile (fun c => !LSH_TOK_DELIM.contains c)).tail) := by
  have hne : (c :: s).takeWhile (fun c => !LSH_TOK_DELIM.contains c) ≠ [] := by
    have hc2 : c ∉ LSH_TOK_DELIM := by simpa using hc
    rw [List.takeWhile_cons]; simp [hc2]
  unfold maximal_runs
  rw [splitOnP_eq_takeWhile_cons, List.filter_cons_of_pos (by simpa using hne)]
  congr 1
  cases (c :: s).dropWhile (fun c => !LSH_TOK_DELIM.contains c) with
  | nil => simp
  | cons d r => simp

theorem dropWhile_head_not (p : Char → Bool) (l : List Char) (c : Char) (s : List Char)
    (h : l.dropWhile p = c :: s) : p c = false := by
  induction l with
  | nil => simp at h
  | cons x xs ih =>
    by_cases hx : p x = true
    · rw [List.dropWhile_cons_of_pos hx] at h; exact ih h
    · rw [List.dropWhile_cons_of_neg hx] at h
      injection h with h1 h2
      subst h1
      simpa using hx

theorem strtok_runs (str : Option CStr) (save : CStr) :
    (strtok str LSH_TOK_DELIM save).1 = (maximal_runs (str.getD save)).head?
    ∧ maximal_runs (strtok str LSH_TOK_DELIM save).2 = (maximal_runs (str.getD save)).tail := by
  rw [← maximal_runs_dropWhile (str.getD save)]
  unfold strtok
  cases h : (str.getD save).dropWhile (fun c => LSH_TOK_DELIM.contains c) with
  | nil => simp [maximal_runs_nil]
  | cons c s =>
    have hc : ¬ LSH_TOK_DELIM.contains c = true := by
      rw [dropWhile_head_not _ _ c s h]; simp
    simp only [maximal_runs_cons_tok c s hc]
    simp

theorem dropWhile_tok_cons (c : Char) (s : CStr) (hc : ¬ LSH_TOK_DELIM.contains c = true) :
    (c :: s).dropWhile (fun c => !LSH_TOK_DELIM.contains c)
      = s.dropWhile (fun c => !LSH_TOK_DELIM.contains c) := by
  apply List.dropWhile_cons_of_pos
  simpa using hc

/-- Induction along the way `maximal_runs` consumes a line: a leading delimiter
is dropped, a leading non-delimiter starts a token that ends with the next
delimiter. -/
theorem maximal_runs_induction (P : CStr → Prop) (hnil : P [])
    (hdelim : ∀ c s, LSH_TOK_DELIM.contains c = true → P s → P (c :: s))
    (htok : ∀ c s, ¬ LSH_TOK_DELIM.contains c = true →
      P (((c :: s).dropWhile (fun c => !LSH_TOK_DELIM.contains c)).tail) → P (c :: s)) :
    ∀ s, P s := by
  have key : ∀ n, ∀ s : CStr, s.length ≤ n → P s := by
    intro n
    induction n with
    | zero =>
      intro s hs
      have : s = [] := List.length_eq_zero.mp (by omega)
      rw [this]; exact hnil
    | succ n ih =>
      intro s hs
      cases s with
      | nil => exact hnil
      | cons c s =>
        by_cases hc : LSH_TOK_DELIM.contains c = true
        · exact hdelim c s hc (ih s (by simpa using hs))
        · refine htok c s hc (ih _ ?_)
          have h1 := (List.dropWhile_suffix (fun c => !LSH_TOK_DELIM.contains c)
            (l := c :: s)).length_le
          have h2 := dropWhile_tok_cons c s hc
          have h3 := (List.dropWhile_suffix (fun c => !LSH_TOK_DELIM.contains c)
            (l := s)).length_le
          rw [h2, List.length_tail]
          simp only [List.length_cons] at hs
          omega
  intro s
  exact key s.length s (le_refl _)

theorem maximal_runs_length_le (s : CStr) : (maximal_runs s).length ≤ s.length := by
  induction s using maximal_runs_induction with
  | hnil => simp [maximal_runs_nil]
  | hdelim c s hc ih => rw [maximal_runs_cons_delim c s hc]; simp; omega
  | htok c s hc ih =>
    rw [maximal_runs_cons_tok c s hc]
    have h2 := dropWhile_tok_cons c s hc
    have h3 := (List.dropWhile_suffix (fun c => !LSH_TOK_DELIM.contains c)
      (l := s)).length_le
    rw [h2, List.length_tail] at ih
    rw [h2]
    simp only [List.length_cons]
    omega

theorem maximal_runs_mem (s : CStr) :
    ∀ t ∈ maximal_runs s, t ≠ [] ∧ ∀ c ∈ t, c ∉ LSH_TOK_DELIM := by
  induction s using maximal_runs_induction with
  | hnil => simp [maximal_runs_nil]
  | hdelim c s hc ih => rw [maximal_runs_cons_delim c s hc]; exact ih
  | htok c s hc ih =>
    rw [maximal_runs_cons_tok c s hc]
    intro t ht
    rcases List.mem_cons.mp ht with rfl | ht
    · refine ⟨?_, ?_⟩
      · have hc2 : c ∉ LSH_TOK_DELIM := by simpa using hc
        rw [List.takeWhile_cons]; simp [hc2]
      · intro d hd
        have := List.mem_takeWhile_imp hd
        simpa using this
    · exact ih t ht

/-- The tokens, one after the other, are the non-delimiter characters of the
line in the order of the line. -/
theorem maximal_runs_join (s : CStr) :
    (maximal_runs s).flatten = s.filter (fun c => !LSH_TOK_DELIM.contains c) := by
  induction s using maximal_runs_induction with
  | hnil => simp [maximal_runs_nil]
  | hdelim c s hc ih =>
    rw [maximal_runs_cons_delim c s hc, ih, List.filter_cons_of_neg (by simpa using hc)]
  | htok c s hc ih =>
    rw [maximal_runs_cons_tok c s hc, List.flatten_cons, ih]
    have hsplit := List.takeWhile_append_dropWhile (fun c => !LSH_TOK_DELIM.contains c) (c :: s)
    have htw : ((c :: s).takeWhile (fun c => !LSH_TOK_DELIM.contains c)).filter
        (fun c => !LSH_TOK_DELIM.contains c)
        = (c :: s).takeWhile (fun c => !LSH_TOK_DELIM.contains c) := by
      rw [List.filter_eq_self]
      intro d hd
      have := List.mem_takeWhile_imp hd
      simpa using this
    have hdw : ((c :: s).dropWhile (fun c => !LSH_TOK_DELIM.contains c)).filter
        (fun c => !LSH_TOK_DELIM.contains c)
        = (((c :: s).dropWhile (fun c => !LSH_TOK_DELIM.contains c)).tail).filter
            (fun c => !LSH_TOK_DELIM.contains c) := by
      cases hd : (c :: s).dropWhile (fun c => !LSH_TOK_DELIM.contains c) with
      | nil => rfl
      | cons d r =>
        have := dropWhile_head_not _ _ d r hd
        rw [List.filter_cons_of_neg (by simpa using this), List.tail_cons]
    conv_rhs => rw [← hsplit, List.filter_append, htw, hdw]

/-- Every line is its tokens woven with runs of delimiters: a run before the
first token, a non-empty run between two tokens, a run after the last one.  So
each token is bounded on both sides by a delimiter or an end of the line. -/
theorem maximal_runs_weave (s : CStr) :
    ∃ (gap0 : CStr) (gaps : List CStr),
      gaps.length = (maximal_runs s).length
        ∧ s = weave gap0 (maximal_runs s) gaps
        ∧ (∀ c ∈ gap0, c ∈ LSH_TOK_DELIM)
        ∧ (∀ g ∈ gaps, ∀ c ∈ g, c ∈ LSH_TOK_DELIM)
        ∧ ∀ g ∈ gaps.dropLast, g ≠ [] := by
  induction s using maximal_runs_induction with
  | hnil => exact ⟨[], [], by simp [maximal_runs_nil], by simp [weave, maximal_runs_nil],
      by simp, by simp, by simp⟩
  | hdelim c s hc ih =>
    obtain ⟨gap0, gaps, hlen, hs, h0, hg, hne⟩ := ih
    refine ⟨c :: gap0, gaps, ?_, ?_, ?_, hg, hne⟩
    · rw [maximal_runs_cons_delim c s hc]; exact hlen
    · rw [maximal_runs_cons_delim c s hc]
      conv_lhs => rw [hs]
      rfl
    · intro d hd
      rcases List.mem_cons.mp hd with rfl | hd
      · simpa using hc
      · exact h0 d hd
  | htok c s hc ih =>
    obtain ⟨gap0, gaps, hlen, hs, h0, hg, hne⟩ := ih
    have hsplit := List.takeWhile_append_dropWhile (fun c => !LSH_TOK_DELIM.contains c) (c :: s)
    rw [maximal_runs_cons_tok c s hc]
    cases hd : (c :: s).dropWhile (fun c => !LSH_TOK_DELIM.contains c) with
    | nil =>
      rw [hd] at hsplit hs hlen
      simp only [List.tail_nil, maximal_runs_nil, List.length_nil, List.length_eq_zero] at hlen
      refine ⟨[], [[]], by simp [maximal_runs_nil], ?_, by simp, by simp, by simp⟩
      simp only [List.tail_nil, maximal_runs_nil, weave, List.zipWith_cons_cons,
        List.zipWith_nil_left, List.flatten_cons, List.flatten_nil, List.append_nil,
        List.nil_append]
      simpa using hsplit.symm
    | cons d r =>
      rw [hd] at hsplit hs hlen
      simp only [List.tail_cons] at hs hlen ⊢
      have hdd : d ∈ LSH_TOK_DELIM := by
        have := dropWhile_head_not _ _ d r hd
        simpa using this
      refine ⟨[], (d :: gap0) :: gaps, by simp [hlen], ?_, by simp, ?_, ?_⟩
      · have hw : weave [] ((c :: s).takeWhile (fun c => !LSH_TOK_DELIM.contains c)
              :: maximal_runs r) ((d :: gap0) :: gaps)
            = (c :: s).takeWhile (fun c => !LSH_TOK_DELIM.contains c)
                ++ d :: weave gap0 (maximal_runs r) gaps := by
          simp [weave]
        rw [hw, ← hs, hsplit]
      · intro g hgm
        rcases List.mem_cons.mp hgm with rfl | hgm
        · intro x hx
          rcases List.mem_cons.mp hx with rfl | hx
          · exact hdd
          · exact h0 x hx
        · exact hg g hgm
      · intro g hgm
        cases gaps with
        | nil => simp at hgm
        | cons g1 gs =>
          simp only [List.dropLast_cons₂, List.mem_cons] at hgm
          rcases hgm with rfl | hgm
          · simp
          · exact hne g hgm

/-- Loop invariant of `split_line`: with `ds` stored so far, the capacity grown
in steps of 64, and `pending` the tokens `strtok` has yet to deliver, the loop
ends with `ds`, the pending tokens and the sentinel in the block. -/
theorem split_line_loop_ok (env : Env) (hA : ∀ n, env.alloc n = true) (w : World) :
    ∀ (pending : List CStr) (fuel bufsize position : Nat) (ds : List CharPtr)
      (tokens : Mem CharPtr) (token : CharPtr) (save : CStr),
      token = pending.head? → maximal_runs save = pending.tail → pending.length < fuel →
      position = ds.length → bufsize = 64 * (position / 64 + 1) →
      tokens = ds.map some ++ List.replicate (bufsize - position) none →
      position + pending.length < 2147483584 →
      split_line_loop env fuel bufsize position tokens token save w
        = .ret ⟨64 * ((position + pending.length) / 64 + 1), position + pending.length,
            (ds ++ pending.map some ++ [none]).map some
              ++ List.replicate (64 * ((position + pending.length) / 64 + 1)
                  - (position + pending.length) - 1) none⟩ w := by
  intro pending
  induction pending with
  | nil =>
    intro fuel bufsize position ds tokens token save htok _ hfuel hpos hsz hbuf _
    obtain ⟨f, rfl⟩ : ∃ f, fuel = f + 1 := ⟨fuel - 1, by simp at hfuel; omega⟩
    have hst : store tokens position (none : CharPtr)
        = some ((ds ++ [none]).map some ++ List.replicate (bufsize - position - 1) none) := by
      rw [hbuf, hpos]; exact store_written_end ds _ none (by omega)
    simp only [List.head?_nil] at htok
    subst htok
    simp [split_line_loop, hst, hsz]
  | cons t ps ih =>
    intro fuel bufsize position ds tokens token save htok hsave hfuel hpos hsz hbuf hlt
    simp only [List.length_cons] at hlt hfuel
    obtain ⟨f, rfl⟩ : ∃ f, fuel = f + 1 := ⟨fuel - 1, by omega⟩
    simp only [List.head?_cons] at htok
    simp only [List.tail_cons] at hsave
    subst htok
    have hst : store tokens position (some t : CharPtr)
        = some ((ds ++ [some t]).map some ++ List.replicate (bufsize - position - 1) none) := by
      rw [hbuf, hpos]; exact store_written_end ds _ (some t) (by omega)
    have hadd : int_add position 1 = some (position + 1) := int_add_eq _ _ (by omega)
    have hnext := strtok_runs none save
    simp only [Option.getD_none, hsave] at hnext
    simp only [split_line_loop, hst, hadd]
    have e : position + 1 + ps.length = position + (ps.length + 1) := by omega
    by_cases hge : position + 1 ≥ bufsize
    · have hadd2 : int_add bufsize LSH_TOK_BUFSIZE = some (bufsize + 64) := by
        unfold LSH_TOK_BUFSIZE; exact int_add_eq _ _ (by omega)
      rw [if_pos hge]
      simp only [hadd2, hA, if_true]
      have hre : realloc ((ds ++ [some t]).map some
            ++ List.replicate (bufsize - position - 1) none) (bufsize + 64)
          = (ds ++ [some t]).map some ++ List.replicate (bufsize + 64 - (position + 1)) none := by
        rw [realloc_written _ _ _ (by simp; omega)]; simp [hpos]
      rw [hre, ih f (bufsize + 64) (position + 1) (ds ++ [some t]) _ _ _ hnext.1 hnext.2
        (by omega) (by simp [hpos]) (by omega) rfl (by omega)]
      simp [e]
    · rw [if_neg hge]
      have hb : bufsize - position - 1 = bufsize - (position + 1) := by omega
      rw [hb, ih f bufsize (position + 1) (ds ++ [some t]) _ _ _ hnext.1 hnext.2
        (by omega) (by simp [hpos]) (by omega) rfl (by omega)]
      simp [e]

/-- When the tokens to store reach the `int` range, the capacity update of
`split_line` overflows. -/
theorem split_line_loop_overflow (env : Env) (hA : ∀ n, env.alloc n = true) (w : World) :
    ∀ (pending : List CStr) (fuel bufsize position : Nat) (ds : List CharPtr)
      (tokens : Mem CharPtr) (token : CharPtr) (save : CStr),
      token = pending.head? → maximal_runs save = pending.tail → pending.length < fuel →
      position = ds.length → bufsize = 64 * (position / 64 + 1) → bufsize ≤ 2147483584 →
      tokens = ds.map some ++ List.replicate (bufsize - position) none →
      2147483584 ≤ position + pending.length →
      split_line_loop env fuel bufsize position tokens token save w = .undefined := by
  intro pending
  induction pending with
  | nil =>
    intro fuel bufsize position ds tokens token save _ _ _ hpos hsz hmax _ hge
    simp only [List.length_nil] at hge
    omega
  | cons t ps ih =>
    intro fuel bufsize position ds tokens token save htok hsave hfuel hpos hsz hmax hbuf hlen
    simp only [List.length_cons] at hlen hfuel
    obtain ⟨f, rfl⟩ : ∃ f, fuel = f + 1 := ⟨fuel - 1, by omega⟩
    simp only [List.head?_cons] at htok
    simp only [List.tail_cons] at hsave
    subst htok
    have hst : store tokens position (some t : CharPtr)
        = some ((ds ++ [some t]).map some ++ List.replicate (bufsize - position - 1) none) := by
      rw [hbuf, hpos]; exact store_written_end ds _ (some t) (by omega)
    have hadd : int_add position 1 = some (position + 1) := int_add_eq _ _ (by omega)
    have hnext := strtok_runs none save
    simp only [Option.getD_none, hsave] at hnext
    simp only [split_line_loop, hst, hadd]
    by_cases hge : position + 1 ≥ bufsize
    · rw [if_pos hge]
      by_cases hov : bufsize = 2147483584
      · have hadd2 : int_add bufsize LSH_TOK_BUFSIZE = none := by
          unfold LSH_TOK_BUFSIZE; exact int_add_overflow _ _ (by omega)
        simp only [hadd2]
      · have hadd2 : int_add bufsize LSH_TOK_BUFSIZE = some (bufsize + 64) := by
          unfold LSH_TOK_BUFSIZE; exact int_add_eq _ _ (by omega)
        simp only [hadd2, hA, if_true]
        have hre : realloc ((ds ++ [some t]).map some
              ++ List.replicate (bufsize - position - 1) none) (bufsize + 64)
            = (ds ++ [some t]).map some
                ++ List.replicate (bufsize + 64 - (position + 1)) none := by
          rw [realloc_written _ _ _ (by simp; omega)]; simp [hpos]
        rw [hre]
        exact ih f (bufsize + 64) (position + 1) (ds ++ [some t]) _ _ _ hnext.1 hnext.2
          (by omega) (by simp [hpos]) (by omega) (by omega) rfl (by omega)
    · rw [if_neg hge]
      have hb : bufsize - position - 1 = bufsize - (position + 1) := by omega
      rw [hb]
      exact ih f bufsize (position + 1) (ds ++ [some t]) _ _ _ hnext.1 hnext.2
        (by omega) (by simp [hpos]) (by omega) hmax rfl (by omega)

/-- What `split_line` does on every line with fewer tokens than the `int`
range allows, allocation succeeding. -/
theorem split_line_state_ok (env : Env) (hA : ∀ n, env.alloc n = true) (line : CStr) (w : World)
    (hlen : (maximal_runs line).length < 2147483584) :
    split_line_state env line w
      = .ret ⟨64 * ((maximal_runs line).length / 64 + 1), (maximal_runs line).length,
            argv (maximal_runs line)
              (List.replicate (64 * ((maximal_runs line).length / 64 + 1)
                - (maximal_runs line).length - 1) none)⟩ w := by
  have hfirst := strtok_runs (some line) []
  simp only [Option.getD_some] at hfirst
  have h := split_line_loop_ok env hA w (maximal_runs line) (line.length + 1) LSH_TOK_BUFSIZE 0 []
    (malloc LSH_TOK_BUFSIZE) _ _ hfirst.1 hfirst.2
    (Nat.lt_succ_of_le (maximal_runs_length_le line)) rfl rfl rfl (by simpa using hlen)
  simp only [Nat.zero_add, List.nil_append] at h
  unfold split_line_state
  rw [if_pos (hA _), h]
  simp [argv]

theorem split_line_state_overflow (env : Env) (hA : ∀ n, env.alloc n = true) (line : CStr)
    (w : World) (hlen : 2147483584 ≤ (maximal_runs line).length) :
    split_line_state env line w = .undefined := by
  have hfirst := strtok_runs (some line) []
  simp only [Option.getD_some] at hfirst
  have h := split_line_loop_overflow env hA w (maximal_runs line) (line.length + 1)
    LSH_TOK_BUFSIZE 0 [] (malloc LSH_TOK_BUFSIZE) _ _ hfirst.1 hfirst.2
    (Nat.lt_succ_of_le (maximal_runs_length_le line)) rfl rfl (by decide) rfl
    (by simpa using hlen)
  unfold split_line_state
  rw [if_pos (hA _), h]

theorem maximal_runs_many_tokens (k : Nat) :
    maximal_runs (many_tokens k) = List.replicate k ['a'] := by
  induction k with
  | zero => exact maximal_runs_nil
  | succ k ih =>
    have ha : ¬ LSH_TOK_DELIM.contains 'a' = true := by decide
    have hb : LSH_TOK_DELIM.contains ' ' = true := by decide
    rw [many_tokens, maximal_runs_cons_tok _ _ ha, List.replicate_succ]
    have h1 : ('a' :: ' ' :: many_tokens k).takeWhile (fun c => !LSH_TOK_DELIM.contains c)
        = ['a'] := by
      rw [List.takeWhile_cons_of_pos (by decide), List.takeWhile_cons_of_neg (by decide)]
    have h2 : ('a' :: ' ' :: many_tokens k).dropWhile (fun c => !LSH_TOK_DELIM.contains c)
        = ' ' :: many_tokens k := by
      rw [List.dropWhile_cons_of_pos (by decide), List.dropWhile_cons_of_neg (by decide)]
    rw [h1, h2, List.tail_cons, ih]

theorem read_line_state_overflow (env : Env) (hA : ∀ n, env.alloc n = true) (w : World)
    (hlen : 2147482624 ≤ (first_line w.stdin).length) :
    read_line_state env w = .undefined := by
  have h := read_line_loop_overflow env hA (w.stdin.dropWhile (fun c => c ≠ '\n')) w
    (w.stdin.takeWhile (fun c => c ≠ '\n')) [] LSH_RL_BUFSIZE 0
    (malloc LSH_RL_BUFSIZE) (newline_not_mem_takeWhile _) rfl rfl (by decide) rfl
    (by simpa [first_line] using hlen)
  rw [List.takeWhile_append_dropWhile] at h
  unfold read_line_state
  rw [if_pos (hA _)]
  exact h

theorem first_line_replicate (n : Nat) : first_line (List.replicate n 'a') = List.replicate n 'a' := by
  unfold first_line
  rw [List.takeWhile_eq_self_iff]
  intro c hc
  rw [List.mem_replicate] at hc
  rw [hc.2]
  decide

theorem first_line_append_newline (l r : List Char) (hl : '\n' ∉ l) :
    first_line (l ++ '\n' :: r) = l ∧ after_line (l ++ '\n' :: r) = r := by
  unfold first_line after_line
  induction l with
  | nil => simp
  | cons c l ih =>
    have hc : c ≠ '\n' := fun e => hl (by simp [e])
    have hl2 : '\n' ∉ l := fun e => hl (by simp [e])
    simp only [List.cons_append]
    rw [List.takeWhile_cons_of_pos (by simpa using hc),
      List.dropWhile_cons_of_pos (by simpa using hc), (ih hl2).1, (ih hl2).2]
    exact ⟨rfl, rfl⟩

/-! ## Dispatcher, builtins and launcher -/

theorem load_argv_nil (rest : Mem CharPtr) : load (argv [] rest) 0 = some none := by
  simp [load, argv]

theorem load_argv_zero (t : CStr) (ts : List CStr) (rest : Mem CharPtr) :
    load (argv (t :: ts) rest) 0 = some (some t) := by
  simp [load, argv]

theorem load_argv_one_nil (t : CStr) (rest : Mem CharPtr) :
    load (argv [t] rest) 1 = some none := by
  simp [load, argv]

theorem load_argv_one (t p : CStr) (ts : List CStr) (rest : Mem CharPtr) :
    load (argv (t :: p :: ts) rest) 1 = some (some p) := by
  simp [load, argv]

/-- The dispatcher on a non-empty argument vector, as a chain of comparisons. -/
theorem execute_cons (env : Env) (t : CStr) (ts : List CStr) (rest : Mem CharPtr) (w : World) :
    execute env (argv (t :: ts) rest) w
      = if t = "cd".toList then lsh_cd env (argv (t :: ts) rest) w
        else if t = "help".toList then lsh_help w
        else if t = "exit".toList then lsh_exit w
        else launch env (argv (t :: ts) rest) w := by
  unfold execute
  rw [load_argv_zero]
  simp only [lsh_num_builtins, builtin_str, List.length_cons, List.length_nil, execute_loop,
    builtin_func, strcmp]
  by_cases h1 : t = "cd".toList
  · simp [h1]
  · by_cases h2 : t = "help".toList
    · simp [h1, h2]
    · by_cases h3 : t = "exit".toList
      · simp [h1, h2, h3]
      · simp [h1, h2, h3]

theorem execute_nil (env : Env) (rest : Mem CharPtr) (w : World) :
    execute env (argv [] rest) w = .ret 1 w := by
  unfold execute
  rw [load_argv_nil]

theorem lsh_cd_no_arg (env : Env) (t : CStr) (rest : Mem CharPtr) (w : World) :
    lsh_cd env (argv [t] rest) w
      = .ret 1 (eprint "Expected argument to \"cd\"\n".toList w) := by
  unfold lsh_cd
  rw [load_argv_one_nil]

theorem lsh_cd_arg (env : Env) (t p : CStr) (ts : List CStr) (rest : Mem CharPtr) (w : World) :
    lsh_cd env (argv (t :: p :: ts) rest) w
      = match env.chdir w p with
        | .ok dir => .ret 1 { w with cwd := dir, trace := w.trace ++ [.chdir p] }
        | .error e =>
          .ret 1 (perror env "lsh".toList { w with errno := e, trace := w.trace ++ [.chdir p] }) := by
  unfold lsh_cd
  rw [load_argv_one]

/-- The wait loop ends at the first report that is exited or signaled: the
stopped reports before it each cost one more `waitpid`. -/
theorem wait_loop_terminal (pid : Nat) (st : WaitStatus) (later : List WaitStatus)
    (hst : WIFEXITED st = true ∨ WIFSIGNALED st = true) :
    ∀ (stops : List Nat) (w : World),
      wait_loop pid (stops.map .stopped ++ st :: later) w
        = .ret () { w with
            trace := w.trace ++ List.replicate (stops.length + 1) (.waitpid pid) } := by
  intro stops
  induction stops with
  | nil =>
    intro w
    have : (!WIFEXITED st && !WIFSIGNALED st) = false := by
      rcases hst with h | h <;> simp [h]
    simp [wait_loop, this]
  | cons s stops ih =>
    intro w
    simp only [List.map_cons, List.cons_append, wait_loop, WIFEXITED, WIFSIGNALED]
    simp only [Bool.not_false, Bool.and_self, if_true, List.append_eq]
    rw [ih]
    simp [List.replicate_succ]

/-- When no report is exited or signaled the wait loop never ends. -/
theorem wait_loop_blocked (pid : Nat) :
    ∀ (reports : List WaitStatus) (w : World),
      reports.any (fun s => WIFEXITED s || WIFSIGNALED s) = false →
      wait_loop pid reports w
        = .blocked { w with
            trace := w.trace ++ List.replicate (reports.length + 1) (.waitpid pid) } := by
  intro reports
  induction reports with
  | nil => intro w _; simp [wait_loop]
  | cons s reports ih =>
    intro w h
    simp only [List.any_cons, Bool.or_eq_false_iff] at h
    have hs : (!WIFEXITED s && !WIFSIGNALED s) = true := by
      simp [h.1.1, h.1.2]
    simp only [wait_loop, hs, if_true]
    rw [ih _ h.2]
    simp [List.replicate_succ]

/-- Reports that hold an exited or signaled status split at the first one:
stopped reports, that status, the rest. -/
theorem reports_split (reports : List WaitStatus)
    (h : reports.any (fun s => WIFEXITED s || WIFSIGNALED s) = true) :
    ∃ (stops : List Nat) (st : WaitStatus) (later : List WaitStatus),
      reports = stops.map .stopped ++ st :: later
        ∧ (WIFEXITED st = true ∨ WIFSIGNALED st = true) := by
  induction reports with
  | nil => simp at h
  | cons s reports ih =>
    cases s with
    | exited c => exact ⟨[], .exited c, reports, rfl, Or.inl rfl⟩
    | signaled c => exact ⟨[], .signaled c, reports, rfl, Or.inr rfl⟩
    | stopped c =>
      have h2 : reports.any (fun s => WIFEXITED s || WIFSIGNALED s) = true := by
        simpa [WIFEXITED, WIFSIGNALED] using h
      obtain ⟨stops, st, later, he, hst⟩ := ih h2
      exact ⟨c :: stops, st, later, by rw [he]; rfl, hst⟩

theorem launch_failed (env : Env) (args : Mem CharPtr) (w : World) (e : Nat)
    (hf : env.fork w = .failed e) :
    launch env args w
      = .ret 1 (perror env "lsh".toList { w with trace := w.trace ++ [.fork], errno := e }) := by
  simp [launch, hf]

theorem launch_parent_terminal (env : Env) (args : Mem CharPtr) (w : World) (pid : Nat)
    (stops : List Nat) (st : WaitStatus) (later : List WaitStatus)
    (hf : env.fork w = .parent pid (stops.map .stopped ++ st :: later))
    (hst : WIFEXITED st = true ∨ WIFSIGNALED st = true) :
    launch env args w
      = .ret 1 { w with
          trace := w.trace ++ .fork :: List.replicate (stops.length + 1) (.waitpid pid) } := by
  simp only [launch, hf]
  rw [wait_loop_terminal pid st later hst]
  simp [Result.bind]

theorem launch_parent_blocked (env : Env) (args : Mem CharPtr) (w : World) (pid : Nat)
    (reports : List WaitStatus) (hf : env.fork w = .parent pid reports)
    (hr : reports.any (fun s => WIFEXITED s || WIFSIGNALED s) = false) :
    launch env args w
      = .blocked { w with
          trace := w.trace ++ .fork :: List.replicate (reports.length + 1) (.waitpid pid) } := by
  simp only [launch, hf]
  rw [wait_loop_blocked pid reports _ hr]
  simp [Result.bind]

theorem launch_child (env : Env) (t : CStr) (ts : List CStr) (rest : Mem CharPtr) (w : World)
    (hf : env.fork w = .child) :
    launch env (argv (t :: ts) rest) w
      = match env.execvp { w with trace := w.trace ++ [.fork] } t (argv (t :: ts) rest) with
        | none =>
          .exec t (argv (t :: ts) rest)
            { w with trace := w.trace ++ [.fork, .execvp t (argv (t :: ts) rest)] }
        | some e =>
          .exited EXIT_FAILURE
            (perror env "lsh".toList
              { w with trace := w.trace ++ [.fork, .execvp t (argv (t :: ts) rest)],
                       errno := e }) := by
  simp only [launch, hf, load_argv_zero]
  cases env.execvp { w with trace := w.trace ++ [.fork] } t (argv (t :: ts) rest) <;> simp

/-- Whether `launch` gives control back is decided by `parent_resumes`, and
when it does the value is 1. -/
theorem launch_returns_iff (env : Env) (t : CStr) (ts : List CStr) (rest : Mem CharPtr)
    (w : World) :
    (parent_resumes (env.fork w) = true →
        ∃ w1, launch env (argv (t :: ts) rest) w = .ret 1 w1)
      ∧ (parent_resumes (env.fork w) = false →
        ∀ v w1, launch env (argv (t :: ts) rest) w ≠ .ret v w1) := by
  cases hf : env.fork w with
  | child =>
    refine ⟨fun h => by simp [parent_resumes] at h, fun _ v w1 => ?_⟩
    rw [launch_child env t ts rest w hf]
    cases env.execvp { w with trace := w.trace ++ [.fork] } t (argv (t :: ts) rest) <;> simp
  | failed e =>
    refine ⟨fun _ => ⟨_, launch_failed env _ w e hf⟩, fun h => by simp [parent_resumes] at h⟩
  | parent pid reports =>
    constructor
    · intro h
      obtain ⟨stops, st, later, he, hst⟩ := reports_split reports (by simpa [parent_resumes] using h)
      exact ⟨_, launch_parent_terminal env _ w pid stops st later (by rw [hf, he]) hst⟩
    · intro h v w1
      rw [launch_parent_blocked env _ w pid reports hf (by simpa [parent_resumes] using h)]
      simp

theorem cstr_written_nul (s : List Char) (tail : Mem Char) :
    cstr (s.map some ++ some NUL :: tail) = some (s.takeWhile (fun c => c ≠ NUL)) := by
  induction s with
  | nil => simp [cstr]
  | cons c s ih =>
    by_cases hc : c = NUL
    · simp [cstr, hc]
    · simp [cstr, hc, ih, List.takeWhile_cons]

theorem maximal_runs_input_line_lt (s : List Char) (h : (first_line s).length < 2147482624) :
    (maximal_runs (input_line s)).length < 2147483584 := by
  have h1 := maximal_runs_length_le (input_line s)
  have h2 : (input_line s).length ≤ (first_line s).length :=
    (List.takeWhile_sublist (l := first_line s) (fun c => c ≠ NUL)).length_le
  omega

/-- One iteration of the command loop, allocation succeeding and the line below
the `int` range: the prompt is printed, the first line is consumed, and its
tokens are dispatched; the loop goes on exactly when the dispatch returned a
value other than 0. -/
theorem loop_step (env : Env) (hA : ∀ n, env.alloc n = true) (fuel : Nat) (w : World)
    (hlen : (first_line w.stdin).length < 2147482624) :
    loop env (fuel + 1) w
      = (execute env
            (argv (maximal_runs (input_line w.stdin))
              (List.replicate (64 * ((maximal_runs (input_line w.stdin)).length / 64 + 1)
                - (maximal_runs (input_line w.stdin)).length - 1) none))
            { w with stdin := after_line w.stdin, stdout := w.stdout ++ PROMPT }).bind
          fun status w => if status ≠ 0 then loop env fuel w else .ret () w := by
  have hr := read_line_state_ok env hA (print PROMPT w) hlen
  have hs := split_line_state_ok env hA (input_line w.stdin)
    { w with stdin := after_line w.stdin, stdout := w.stdout ++ PROMPT }
    (maximal_runs_input_line_lt _ hlen)
  have hc : cstr ((first_line w.stdin ++ [NUL]).map some
      ++ List.replicate (1024 * ((first_line w.stdin).length / 1024 + 1)
          - (first_line w.stdin).length - 1) none) = some (input_line w.stdin) := by
    have := cstr_written_nul (first_line w.stdin)
      (List.replicate (1024 * ((first_line w.stdin).length / 1024 + 1)
          - (first_line w.stdin).length - 1) none)
    simpa [input_line] using this
  simp only [print] at hr
  simp only [loop, read_line, split_line, print, hr, Result.bind, hc, hs]

theorem maximal_runs_all_delim (line : CStr) (h : ∀ c ∈ line, c ∈ LSH_TOK_DELIM) :
    maximal_runs line = [] := by
  induction line with
  | nil => exact maximal_runs_nil
  | cons c s ih =>
    rw [maximal_runs_cons_delim c s (by simpa using h c (by simp))]
    exact ih (fun d hd => h d (by simp [hd]))

theorem lsh_help_eq (w : World) :
    lsh_help w = .ret 1 { w with stdout := w.stdout ++ help_text } := by
  simp [lsh_help, lsh_help_loop, lsh_num_builtins, builtin_str, print, help_text]

theorem dispatch_times_nil (env : Env) (rest : Mem CharPtr) (w : World) :
    ∀ n, dispatch_times env (argv [] rest) n w = .ret 1 w := by
  intro n
  induction n with
  | zero => rfl
  | succ n ih => simp [dispatch_times, ih, Result.bind, execute_nil]

/-! ## Frame of a dispatch and the loop at end-of-input -/

/-- In the child created by `fork`, `launch` does not return, whatever the
block it is given. -/
theorem launch_child_no_return (env : Env) (args : Mem CharPtr) (w : World)
    (hf : env.fork w = .child) (v : Int) (w1 : World) :
    launch env args w ≠ .ret v w1 := by
  simp only [launch, hf]
  cases load args 0 with
  | none => simp
  | some p =>
    cases p with
    | none => simp
    | some file =>
      simp only
      cases env.execvp { w with trace := w.trace ++ [.fork] } file args <;> simp

/-- When `launch` returns, the value is 1 and only the error stream, `errno`
and the trace of system calls can differ. -/
theorem launch_ret (env : Env) (args : Mem CharPtr) (w : World) (v : Int) (w1 : World)
    (h : launch env args w = .ret v w1) :
    v = 1 ∧ w1.stdin = w.stdin ∧ w1.stdout = w.stdout ∧ w1.cwd = w.cwd := by
  cases hf : env.fork w with
  | child => exact absurd h (launch_child_no_return env args w hf v w1)
  | failed e =>
    rw [launch_failed env args w e hf] at h
    injection h with h1 h2
    subst h1; subst h2
    simp [perror, eprint]
  | parent pid reports =>
    by_cases hr : reports.any (fun s => WIFEXITED s || WIFSIGNALED s) = true
    · obtain ⟨stops, st, later, he, hst⟩ := reports_split reports hr
      rw [launch_parent_terminal env args w pid stops st later (by rw [hf, he]) hst] at h
      injection h with h1 h2
      subst h1; subst h2
      simp
    · rw [launch_parent_blocked env args w pid reports hf (by simpa using hr)] at h
      simp at h

/-- When `execute` returns on an argument vector, either the value is 0, the
first token is `exit` and the state is unchanged, or the value is 1, the first
token is not `exit`, the input is untouched and, unless the first token is
`cd`, so is the working directory. -/
theorem execute_ret (env : Env) (ts : List CStr) (rest : Mem CharPtr) (w : World) (v : Int)
    (w1 : World) (h : execute env (argv ts rest) w = .ret v w1) :
    (v = 0 ∧ ts.head? = some "exit".toList ∧ w1 = w)
      ∨ (v = 1 ∧ ts.head? ≠ some "exit".toList ∧ w1.stdin = w.stdin
          ∧ (ts.head? ≠ some "cd".toList → w1.cwd = w.cwd)) := by
  cases ts with
  | nil =>
    rw [execute_nil] at h
    injection h with h1 h2
    subst h1; subst h2
    exact Or.inr ⟨rfl, by simp, rfl, fun _ => rfl⟩
  | cons t us =>
    rw [execute_cons] at h
    by_cases h1 : t = "cd".toList
    · subst h1
      rw [if_pos rfl] at h
      right
      cases us with
      | nil =>
        rw [lsh_cd_no_arg] at h
        injection h with h1 h2
        subst h1; subst h2
        exact ⟨rfl, by simp, rfl, fun hne => absurd rfl hne⟩
      | cons p vs =>
        rw [lsh_cd_arg] at h
        cases hc : env.chdir w p with
        | ok d =>
          rw [hc] at h
          injection h with h1 h2
          subst h1; subst h2
          exact ⟨rfl, by simp, rfl, fun hne => absurd rfl hne⟩
        | error e =>
          rw [hc] at h
          injection h with h1 h2
          subst h1; subst h2
          exact ⟨rfl, by simp, rfl, fun hne => absurd rfl hne⟩
    · rw [if_neg h1] at h
      by_cases h2 : t = "help".toList
      · subst h2
        rw [if_pos rfl, lsh_help_eq] at h
        injection h with h1 h2
        subst h1; subst h2
        exact Or.inr ⟨rfl, by simp, rfl, fun _ => rfl⟩
      · rw [if_neg h2] at h
        by_cases h3 : t = "exit".toList
        · subst h3
          rw [if_pos rfl] at h
          simp only [lsh_exit] at h
          injection h with h1 h2
          subst h1; subst h2
          exact Or.inl ⟨rfl, rfl, rfl⟩
        · rw [if_neg h3] at h
          obtain ⟨hv, hin, _, hcwd⟩ := launch_ret env _ w v w1 h
          exact Or.inr ⟨hv, by simpa using h3, hin, fun _ => hcwd⟩

theorem lines_eq (s : List Char) :
    lines s = first_line s ::
      (match s.dropWhile (fun c => c ≠ '\n') with
        | [] => []
        | _ :: r => lines r) := by
  unfold lines first_line
  rw [splitOnP_eq_takeWhile_cons]
  simp only [decide_not]

theorem no_exit_command_nil : no_exit_command [] = true := by
  decide

/-- A stream without `exit` command has a first line below the `int` range
whose first token is not `exit`, and what follows that line is again a stream
without `exit` command. -/
theorem no_exit_command_step (s : List Char) (h : no_exit_command s = true) :
    (first_line s).length < 2147482624
      ∧ (maximal_runs (input_line s)).head? ≠ some "exit".toList
      ∧ no_exit_command (after_line s) = true := by
  unfold no_exit_command at h
  rw [lines_eq, List.all_cons, Bool.and_eq_true, Bool.and_eq_true] at h
  obtain ⟨⟨h1, h2⟩, h3⟩ := h
  refine ⟨by simpa using h1, by simpa [input_line] using h2, ?_⟩
  unfold after_line
  cases hd : s.dropWhile (fun c => c ≠ '\n') with
  | nil => exact no_exit_command_nil
  | cons d r =>
    rw [hd] at h3
    exact h3

/-- At end-of-input the loop uses up every iteration bound: it never returns. -/
theorem loop_eof (env : Env) (hA : ∀ n, env.alloc n = true) :
    ∀ (fuel : Nat) (w : World), w.stdin = [] → loop env fuel w = .outOfFuel := by
  intro fuel
  induction fuel with
  | zero => intro w _; rfl
  | succ fuel ih =>
    intro w h
    rw [loop_step env hA fuel w (by rw [h]; decide)]
    have hruns : maximal_runs (input_line w.stdin) = [] := by rw [h]; rfl
    rw [hruns, execute_nil]
    simp only [Result.bind]
    rw [if_pos (by decide)]
    exact ih _ (by rw [h]; rfl)

/-- One iteration at end-of-input only prints the prompt. -/
theorem loop_eof_step (env : Env) (hA : ∀ n, env.alloc n = true) (fuel : Nat) (w : World)
    (h : w.stdin = []) : loop env (fuel + 1) w = loop env fuel (print PROMPT w) := by
  rw [loop_step env hA fuel w (by rw [h]; decide)]
  have hruns : maximal_runs (input_line w.stdin) = [] := by rw [h]; rfl
  rw [hruns, execute_nil]
  simp only [Result.bind]
  rw [if_pos (by decide)]
  congr 1
  cases w
  simp only at h
  subst h
  rfl

/-- What `read_line` returns when the first line of the input is empty: at
end-of-input or before a newline. -/
theorem read_line_empty (env : Env) (hA : ∀ n, env.alloc n = true) (w : World)
    (h : first_line w.stdin = []) :
    read_line env w
      = .ret (some NUL :: List.replicate 1023 none) { w with stdin := after_line w.stdin } := by
  have hr := read_line_state_ok env hA w (by rw [h]; decide)
  rw [h] at hr
  have e : 1024 * (([] : List Char).length / 1024 + 1) - ([] : List Char).length - 1 = 1023 :=
    rfl
  rw [e] at hr
  unfold read_line
  rw [hr]
  rfl

/-- On a stream without `exit` command the loop never returns, whatever its
iteration bound. -/
theorem loop_never_returns (env : Env) (hA : ∀ n, env.alloc n = true) :
    ∀ (fuel : Nat) (w : World), no_exit_command w.stdin = true →
      ∀ u, loop env fuel w ≠ .ret () u := by
  intro fuel
  induction fuel with
  | zero => intro w _ u h; simp [loop] at h
  | succ fuel ih =>
    intro w h u
    obtain ⟨hlen, hhead, hrest⟩ := no_exit_command_step w.stdin h
    rw [loop_step env hA fuel w hlen]
    cases hex : execute env
        (argv (maximal_runs (input_line w.stdin))
          (List.replicate (64 * ((maximal_runs (input_line w.stdin)).length / 64 + 1)
            - (maximal_runs (input_line w.stdin)).length - 1) none))
        { w with stdin := after_line w.stdin, stdout := w.stdout ++ PROMPT } with
    | ret v w1 =>
      simp only [Result.bind]
      rcases execute_ret env _ _ _ v w1 hex with ⟨_, hexit, _⟩ | ⟨hv, _, hin, _⟩
      · exact absurd hexit hhead
      · subst hv
        rw [if_pos (by decide)]
        exact ih w1 (by rw [hin]; exact hrest) u
    | exited s w1 => simp [Result.bind]
    | exec f a w1 => simp [Result.bind]
    | blocked w1 => simp [Result.bind]
    | undefined => simp [Result.bind]
    | outOfFuel => simp [Result.bind]

/-! ## Wait loop over arbitrary reports -/

/-- The statuses that do not end the wait are the stopped ones. -/
theorem not_terminal_iff_stopped (s : WaitStatus) :
    (!WIFEXITED s && !WIFSIGNALED s) = true ↔ ∃ sig, s = .stopped sig := by
  cases s <;> simp [WIFEXITED, WIFSIGNALED]

/-- The wait loop on any sequence of reports: it ends at the first report that
is exited or signaled, after one `waitpid` for each report before it and one
for that report; without such a report it never ends. -/
theorem wait_loop_eq (pid : Nat) :
    ∀ (reports : List WaitStatus) (w : World),
      wait_loop pid reports w
        = if reports.any (fun s => WIFEXITED s || WIFSIGNALED s) = true then
            .ret () { w with
              trace := w.trace ++ List.replicate
                ((reports.takeWhile (fun s => !WIFEXITED s && !WIFSIGNALED s)).length + 1)
                (.waitpid pid) }
          else
            .blocked { w with
              trace := w.trace ++ List.replicate (reports.length + 1) (.waitpid pid) } := by
  intro reports
  induction reports with
  | nil => intro w; simp [wait_loop]
  | cons s reports ih =>
    intro w
    by_cases hs : (!WIFEXITED s && !WIFSIGNALED s) = true
    · have hs2 : (WIFEXITED s || WIFSIGNALED s) = false := by
        cases s <;> simp_all [WIFEXITED, WIFSIGNALED]
      simp only [wait_loop, hs, if_true, List.any_cons, hs2, Bool.false_or,
        List.takeWhile_cons_of_pos, List.length_cons]
      rw [ih]
      by_cases hr : reports.any (fun s => WIFEXITED s || WIFSIGNALED s) = true
      · simp only [hr, if_true]
        simp [List.replicate_succ]
      · simp only [hr]
        simp [List.replicate_succ]
    · have hs2 : (WIFEXITED s || WIFSIGNALED s) = true := by
        cases s <;> simp_all [WIFEXITED, WIFSIGNALED]
      have htw : (s :: reports).takeWhile (fun s => !WIFEXITED s && !WIFSIGNALED s) = [] :=
        List.takeWhile_cons_of_neg hs
      simp only [wait_loop, hs, List.any_cons, hs2, Bool.true_or, if_true, htw]
      simp

/-! ## Lines built from tokens and gaps -/

theorem first_line_of_no_newline (l : List Char) (h : '\n' ∉ l) :
    first_line l = l ∧ after_line l = [] := by
  unfold first_line after_line
  have h1 : l.takeWhile (fun c => decide (c ≠ '\n')) = l := by
    rw [List.takeWhile_eq_self_iff]
    intro c hc
    have : c ≠ '\n' := fun e => h (e ▸ hc)
    simpa using this
  have h2 : l.dropWhile (fun c => decide (c ≠ '\n')) = [] := by
    rw [List.dropWhile_eq_nil_iff]
    intro c hc
    have : c ≠ '\n' := fun e => h (e ▸ hc)
    simpa using this
  rw [h1, h2]
  exact ⟨rfl, rfl⟩

theorem maximal_runs_gap_append (g s : CStr) (hg : ∀ c ∈ g, c ∈ LSH_TOK_DELIM) :
    maximal_runs (g ++ s) = maximal_runs s := by
  induction g with
  | nil => rfl
  | cons c g ih =>
    rw [List.cons_append, maximal_runs_cons_delim c _ (by simpa using hg c (by simp))]
    exact ih (fun d hd => hg d (by simp [hd]))

theorem takeWhile_tok_append (t : CStr) (d : Char) (r : CStr)
    (ht : ∀ c ∈ t, c ∉ LSH_TOK_DELIM) (hd : d ∈ LSH_TOK_DELIM) :
    (t ++ d :: r).takeWhile (fun c => !LSH_TOK_DELIM.contains c) = t
      ∧ (t ++ d :: r).dropWhile (fun c => !LSH_TOK_DELIM.contains c) = d :: r := by
  induction t with
  | nil =>
    simp only [List.nil_append]
    rw [List.takeWhile_cons_of_neg (by simpa using hd),
      List.dropWhile_cons_of_neg (by simpa using hd)]
    exact ⟨rfl, rfl⟩
  | cons c t ih =>
    have hc : c ∉ LSH_TOK_DELIM := ht c (by simp)
    have := ih (fun x hx => ht x (by simp [hx]))
    simp only [List.cons_append]
    rw [List.takeWhile_cons_of_pos (by simpa using hc),
      List.dropWhile_cons_of_pos (by simpa using hc), this.1, this.2]
    exact ⟨rfl, rfl⟩

theorem takeWhile_tok_self (t : CStr) (ht : ∀ c ∈ t, c ∉ LSH_TOK_DELIM) :
    t.takeWhile (fun c => !LSH_TOK_DELIM.contains c) = t
      ∧ t.dropWhile (fun c => !LSH_TOK_DELIM.contains c) = [] := by
  constructor
  · rw [List.takeWhile_eq_self_iff]
    intro c hc
    simpa using ht c hc
  · rw [List.dropWhile_eq_nil_iff]
    intro c hc
    simpa using ht c hc

/-- A token followed by a delimiter is the first maximal run. -/
theorem maximal_runs_tok_append (t : CStr) (d : Char) (r : CStr) (hne : t ≠ [])
    (ht : ∀ c ∈ t, c ∉ LSH_TOK_DELIM) (hd : d ∈ LSH_TOK_DELIM) :
    maximal_runs (t ++ d :: r) = t :: maximal_runs r := by
  cases t with
  | nil => exact absurd rfl hne
  | cons c t =>
    have hc : ¬ LSH_TOK_DELIM.contains c = true := by simpa using ht c (by simp)
    have h := takeWhile_tok_append (c :: t) d r ht hd
    rw [List.cons_append] at h ⊢
    rw [maximal_runs_cons_tok c _ hc, h.1, h.2, List.tail_cons]

/-- A token alone is the only maximal run. -/
theorem maximal_runs_tok (t : CStr) (hne : t ≠ []) (ht : ∀ c ∈ t, c ∉ LSH_TOK_DELIM) :
    maximal_runs t = [t] := by
  cases t with
  | nil => exact absurd rfl hne
  | cons c t =>
    have hc : ¬ LSH_TOK_DELIM.contains c = true := by simpa using ht c (by simp)
    have h := takeWhile_tok_self (c :: t) ht
    rw [maximal_runs_cons_tok c _ hc, h.1, h.2]
    rfl

/-- The maximal runs of tokens woven with runs of delimiters are the tokens. -/
theorem maximal_runs_of_weave :
    ∀ (tokens gaps : List CStr) (gap0 : CStr),
      gaps.length = tokens.length →
      (∀ t ∈ tokens, t ≠ [] ∧ ∀ c ∈ t, c ∉ LSH_TOK_DELIM) →
      (∀ c ∈ gap0, c ∈ LSH_TOK_DELIM) →
      (∀ g ∈ gaps, ∀ c ∈ g, c ∈ LSH_TOK_DELIM) →
      (∀ g ∈ gaps.dropLast, g ≠ []) →
      maximal_runs (weave gap0 tokens gaps) = tokens := by
  intro tokens
  induction tokens with
  | nil =>
    intro gaps gap0 _ _ h0 _ _
    have : weave gap0 [] gaps = gap0 ++ [] := by simp [weave]
    rw [this, maximal_runs_gap_append gap0 [] h0]
    exact maximal_runs_nil
  | cons t ts ih =>
    intro gaps gap0 hlen htok h0 hg hne
    cases gaps with
    | nil => simp at hlen
    | cons g gs =>
      have hw : weave gap0 (t :: ts) (g :: gs) = gap0 ++ (t ++ weave g ts gs) := by
        simp [weave]
      have ht := htok t (by simp)
      have hrec : maximal_runs (weave g ts gs) = ts := by
        apply ih gs g (by simpa using hlen) (fun x hx => htok x (by simp [hx]))
          (hg g (by simp)) (fun x hx => hg x (by simp [hx]))
        intro x hx
        cases gs with
        | nil => simp at hx
        | cons g1 gs1 =>
          exact hne x (by simp only [List.dropLast_cons₂, List.mem_cons]; exact Or.inr hx)
      rw [hw, maximal_runs_gap_append gap0 _ h0]
      cases g with
      | nil =>
        cases gs with
        | nil =>
          cases ts with
          | nil =>
            have : weave [] [] [] = [] := rfl
            rw [this, List.append_nil]
            exact maximal_runs_tok t ht.1 ht.2
          | cons t1 ts1 => simp at hlen
        | cons g1 gs1 =>
          exact absurd rfl (hne [] (by simp))
      | cons d g1 =>
        have hd : d ∈ LSH_TOK_DELIM := hg (d :: g1) (by simp) d (by simp)
        have hw2 : weave (d :: g1) ts gs = d :: weave g1 ts gs := by simp [weave]
        rw [hw2] at hrec ⊢
        rw [maximal_runs_tok_append t d _ ht.1 ht.2 hd]
        rw [maximal_runs_cons_delim d _ (by simpa using hd)] at hrec
        rw [hrec]

/-- The single-blank join of tokens, as a weave. -/
theorem intercalate_blank_eq_weave (t : CStr) (ts : List CStr) :
    List.intercalate [' '] (t :: ts)
      = weave [] (t :: ts) (List.replicate ts.length [' '] ++ [[]]) := by
  induction ts generalizing t with
  | nil => simp [weave, List.intercalate]
  | cons u us ih =>
    have h1 : List.intercalate [' '] (t :: u :: us)
        = t ++ ' ' :: List.intercalate [' '] (u :: us) := by
      simp [List.intercalate]
    rw [h1, ih u]
    simp [weave, List.replicate_succ]

/-- Splitting the single-blank join of tokens gives the tokens back. -/
theorem maximal_runs_intercalate (ts : List CStr)
    (htok : ∀ t ∈ ts, t ≠ [] ∧ ∀ c ∈ t, c ∉ LSH_TOK_DELIM) :
    maximal_runs (List.intercalate [' '] ts) = ts := by
  cases ts with
  | nil => exact maximal_runs_nil
  | cons t us =>
    rw [intercalate_blank_eq_weave]
    apply maximal_runs_of_weave _ _ _ (by simp) htok (by simp)
    · intro g hg c hc
      simp only [List.mem_append, List.mem_replicate, List.mem_singleton] at hg
      rcases hg with ⟨_, rfl⟩ | rfl
      · simp only [List.mem_singleton] at hc
        subst hc
        decide
      · simp at hc
    · intro g hg
      rw [List.dropLast_concat] at hg
      simp only [List.mem_replicate] at hg
      rw [hg.2]
      simp

/-- When `execute` gives control back: on the empty vector, on a builtin, and
on an external command when the caller of `fork` resumes. -/
theorem execute_returns (env : Env) (ts : List CStr) (rest : Mem CharPtr) (w : World)
    (h : ts = [] ∨ ts.head? = some "cd".toList ∨ ts.head? = some "help".toList
      ∨ ts.head? = some "exit".toList ∨ parent_resumes (env.fork w) = true) :
    ∃ v u, execute env (argv ts rest) w = .ret v u := by
  cases ts with
  | nil => exact ⟨1, w, execute_nil env rest w⟩
  | cons t us =>
    rw [execute_cons]
    by_cases h1 : t = "cd".toList
    · subst h1
      rw [if_pos rfl]
      cases us with
      | nil => exact ⟨_, _, lsh_cd_no_arg env _ rest w⟩
      | cons p vs =>
        rw [lsh_cd_arg]
        cases env.chdir w p <;> exact ⟨_, _, rfl⟩
    · rw [if_neg h1]
      by_cases h2 : t = "help".toList
      · subst h2
        rw [if_pos rfl]
        exact ⟨_, _, lsh_help_eq w⟩
      · rw [if_neg h2]
        by_cases h3 : t = "exit".toList
        · subst h3
          rw [if_pos rfl]
          exact ⟨_, _, rfl⟩
        · rw [if_neg h3]
          have hp : parent_resumes (env.fork w) = true := by
            rcases h with h | h | h | h | h
            · exact absurd h (List.cons_ne_nil _ _)
            · exact absurd (Option.some.inj h) h1
            · exact absurd (Option.some.inj h) h2
            · exact absurd (Option.some.inj h) h3
            · exact h
          obtain ⟨u, hu⟩ := (launch_returns_iff env t us rest w).1 hp
          exact ⟨1, u, hu⟩

/-! ## The lines that reach the tokenizer -/

/-- When the loop of `read_line` returns, every allocation it asked for
succeeded: it returns the same when all allocations succeed. -/
theorem read_line_loop_alloc (env : Env) (w : World) :
    ∀ (s : List Char) (bufsize position : Nat) (buffer : Mem Char) (st : LineBuf) (w1 : World),
      read_line_loop env bufsize position buffer s w = .ret st w1 →
      read_line_loop { env with alloc := fun _ => true } bufsize position buffer s w
        = .ret st w1 := by
  intro s
  induction s with
  | nil =>
    intro bufsize position buffer st w1 h
    simpa [read_line_loop] using h
  | cons c s ih =>
    intro bufsize position buffer st w1 h
    simp only [read_line_loop] at h ⊢
    by_cases hc : c = '\n'
    · simpa [hc] using h
    · simp only [hc, if_false] at h ⊢
      cases hst : store buffer position c with
      | none => rw [hst] at h; simp at h
      | some b1 =>
        rw [hst] at h
        simp only at h ⊢
        cases hadd : int_add position 1 with
        | none => rw [hadd] at h; simp at h
        | some p1 =>
          rw [hadd] at h
          simp only at h ⊢
          by_cases hge : p1 ≥ bufsize
          · rw [if_pos hge] at h ⊢
            cases hadd2 : int_add bufsize LSH_RL_BUFSIZE with
            | none => rw [hadd2] at h; simp at h
            | some b2 =>
              rw [hadd2] at h
              simp only at h ⊢
              cases ha : env.alloc b2 with
              | false => rw [ha] at h; simp at h
              | true =>
                rw [ha] at h
                simp only [if_true] at h ⊢
                exact ih _ _ _ _ _ h
          · rw [if_neg hge] at h ⊢
            exact ih _ _ _ _ _ h

/-- Every line that reaches `split_line` is shorter than `2^31 - 1024`
characters: `read_line` does not return on a longer one. -/
theorem received_length_lt (line : CStr) (h : received line) : line.length < 2147482624 := by
  obtain ⟨env, w, buffer, w1, hr, hc⟩ := h
  unfold read_line at hr
  cases hs : read_line_state env w with
  | ret st w2 =>
    rw [hs] at hr
    simp only [Result.bind] at hr
    injection hr with hb hw
    unfold read_line_state at hs
    cases ha : env.alloc LSH_RL_BUFSIZE with
    | false => rw [ha] at hs; simp at hs
    | true =>
      rw [ha] at hs
      simp only [if_true] at hs
      have hs2 := read_line_loop_alloc env w _ _ _ _ _ _ hs
      have hstate : read_line_state { env with alloc := fun _ => true } w = .ret st w2 := by
        unfold read_line_state
        rw [if_pos rfl]
        exact hs2
      by_cases hlen : (first_line w.stdin).length < 2147482624
      · rw [read_line_state_ok _ (fun _ => rfl) w hlen] at hstate
        injection hstate with hst _
        rw [← hb, ← hst] at hc
        simp only [List.map_append, List.map_cons, List.map_nil, List.append_assoc,
          List.singleton_append] at hc
        rw [cstr_written_nul] at hc
        injection hc with hc
        rw [← hc]
        have h2 : ((first_line w.stdin).takeWhile (fun c => c ≠ NUL)).length
            ≤ (first_line w.stdin).length :=
          (List.takeWhile_sublist (l := first_line w.stdin) (fun c => c ≠ NUL)).length_le
        omega
      · rw [read_line_state_overflow _ (fun _ => rfl) w (by omega)] at hstate
        simp at hstate
  | exited s0 w2 => rw [hs] at hr; simp [Result.bind] at hr
  | exec f a w2 => rw [hs] at hr; simp [Result.bind] at hr
  | blocked w2 => rw [hs] at hr; simp [Result.bind] at hr
  | undefined => rw [hs] at hr; simp [Result.bind] at hr
  | outOfFuel => rw [hs] at hr; simp [Result.bind] at hr

/-- A received line has fewer tokens than the capacity of `split_line` can
count. -/
theorem received_runs_lt (line : CStr) (h : received line) :
    (maximal_runs line).length < 2147483584 := by
  have h1 := received_length_lt line h
  have h2 := maximal_runs_length_le line
  omega

/-- Every string without newline and NUL that is shorter than `2^31 - 1024`
characters is received: `read_line` returns it when it is the input. -/
theorem received_of_short (line : CStr) (hnl : '\n' ∉ line) (hnul : NUL ∉ line)
    (hlen : line.length < 2147482624) : received line := by
  have hfl := first_line_of_no_newline line hnl
  have hlen2 : (first_line (world0 line).stdin).length < 2147482624 := by
    show (first_line line).length < 2147482624
    rw [hfl.1]; exact hlen
  have hr : read_line_state sample_env (world0 line)
      = .ret ⟨1024 * ((first_line line).length / 1024 + 1), (first_line line).length,
            (first_line line ++ [NUL]).map some
              ++ List.replicate (1024 * ((first_line line).length / 1024 + 1)
                  - (first_line line).length - 1) none⟩
          { world0 line with stdin := after_line line } :=
    read_line_state_ok sample_env (fun _ => rfl) (world0 line) hlen2
  rw [hfl.1, hfl.2] at hr
  refine ⟨sample_env, world0 line,
    (line ++ [NUL]).map some
      ++ List.replicate (1024 * (line.length / 1024 + 1) - line.length - 1) none,
    { world0 line with stdin := [] }, ?_, ?_⟩
  · unfold read_line
    rw [hr]
    rfl
  · simp only [List.map_append, List.map_cons, List.map_nil, List.append_assoc,
      List.singleton_append]
    exact cstr_written line _ hnul

/-! ## Claims -/

/-- C1.  For every input line, that is for every C string that `read_line`
returned, which is what the program passes to `split_line` (`received`),
allocation succeeding, `split_line` returns the block that holds exactly the
maximal runs of non-delimiter characters of the line, in left-to-right order,
followed by the `NULL` sentinel (the cells after the sentinel are unwritten),
and leaves the state unchanged; no returned token is empty and no token
contains a delimiter.  That the tokens are the maximal runs is also stated
without `maximal_runs`: the line is the tokens woven with runs of delimiters,
the runs between two tokens being non-empty. -/
theorem split_line_returns_maximal_runs (env : Env) (hA : ∀ n, env.alloc n = true)
    (line : CStr) (w : World) (hline : received line) :
    split_line env line w
        = .ret (argv (maximal_runs line)
            (List.replicate (64 * ((maximal_runs line).length / 64 + 1)
              - (maximal_runs line).length - 1) none)) w
      ∧ (∀ t ∈ maximal_runs line, t ≠ [] ∧ ∀ c ∈ t, c ∉ LSH_TOK_DELIM)
      ∧ ∃ (gap0 : CStr) (gaps : List CStr),
          gaps.length = (maximal_runs line).length
            ∧ line = weave gap0 (maximal_runs line) gaps
            ∧ (∀ c ∈ gap0, c ∈ LSH_TOK_DELIM)
            ∧ (∀ g ∈ gaps, ∀ c ∈ g, c ∈ LSH_TOK_DELIM)
            ∧ ∀ g ∈ gaps.dropLast, g ≠ [] := by
  refine ⟨?_, maximal_runs_mem line, maximal_runs_weave line⟩
  unfold split_line
  rw [split_line_state_ok env hA line w (received_runs_lt line hline)]
  rfl

/-- Witness of C1, at the line `"  ls   -la  "`, which `read_line` returns when
it is typed, with the three examples of the claim evaluated: `"  ls   -la  "`
gives `ls`, `-la` and the sentinel, the empty line and the blank line give the
sentinel alone. -/
theorem split_line_returns_maximal_runs_witness :
    (received "  ls   -la  ".toList
      ∧ split_line sample_env "  ls   -la  ".toList (world0 [])
          = .ret (argv (maximal_runs "  ls   -la  ".toList)
              (List.replicate (64 * ((maximal_runs "  ls   -la  ".toList).length / 64 + 1)
                - (maximal_runs "  ls   -la  ".toList).length - 1) none)) (world0 [])
      ∧ ∀ t ∈ maximal_runs "  ls   -la  ".toList, t ≠ [] ∧ ∀ c ∈ t, c ∉ LSH_TOK_DELIM)
    ∧ maximal_runs "  ls   -la  ".toList = ["ls".toList, "-la".toList]
    ∧ "  ls   -la  ".toList
        = weave "  ".toList ["ls".toList, "-la".toList] ["   ".toList, "  ".toList]
    ∧ split_line sample_env "  ls   -la  ".toList (world0 [])
        = .ret (argv ["ls".toList, "-la".toList] (List.replicate 61 none)) (world0 [])
    ∧ (received [] ∧ split_line sample_env [] (world0 [])
        = .ret (argv [] (List.replicate 63 none)) (world0 []))
    ∧ (received "   ".toList ∧ split_line sample_env "   ".toList (world0 [])
        = .ret (argv [] (List.replicate 63 none)) (world0 [])) :=
  ⟨⟨received_of_short _ (by decide) (by decide) (by decide),
      (split_line_returns_maximal_runs sample_env (fun _ => rfl) "  ls   -la  ".toList
        (world0 []) (received_of_short _ (by decide) (by decide) (by decide))).1,
      (split_line_returns_maximal_runs sample_env (fun _ => rfl) "  ls   -la  ".toList
        (world0 []) (received_of_short _ (by decide) (by decide) (by decide))).2.1⟩,
    by decide, by decide, by decide,
    ⟨received_of_short _ (by decide) (by decide) (by decide), by decide⟩,
    ⟨received_of_short _ (by decide) (by decide) (by decide), by decide⟩⟩

/-- C2, as amended.  For every input stream whose first line (the characters
that precede the first newline or the end of input) is shorter than 2147482624
(that is `2^31 - 1024`) characters, allocation succeeding, `read_line` returns
the block that holds exactly these characters, in order, followed by the
string terminator, with the newline itself excluded and consumed: the input
that is left starts after it.  When the line holds no NUL the C string that
starts at the returned pointer is the line. -/
theorem read_line_returns_first_line (env : Env) (hA : ∀ n, env.alloc n = true) (w : World)
    (hlen : (first_line w.stdin).length < 2147482624) :
    read_line env w
        = .ret ((first_line w.stdin ++ [NUL]).map some
              ++ List.replicate (1024 * ((first_line w.stdin).length / 1024 + 1)
                  - (first_line w.stdin).length - 1) none)
            { w with stdin := after_line w.stdin }
      ∧ (NUL ∉ first_line w.stdin →
          cstr ((first_line w.stdin ++ [NUL]).map some
              ++ List.replicate (1024 * ((first_line w.stdin).length / 1024 + 1)
                  - (first_line w.stdin).length - 1) none) = some (first_line w.stdin)) := by
  constructor
  · unfold read_line
    rw [read_line_state_ok env hA w hlen]
    rfl
  · intro hnul
    have := cstr_written (first_line w.stdin)
      (List.replicate (1024 * ((first_line w.stdin).length / 1024 + 1)
                  - (first_line w.stdin).length - 1) none) hnul
    simpa using this

/-- Witness of C2 as amended: a line of 2048 characters, twice the initial
capacity, followed by a newline and a second line, is returned whole and the
second line is left in the input. -/
theorem read_line_returns_first_line_witness :
    ((first_line (world0 (List.replicate 2048 'x' ++ "\nls\n".toList)).stdin).length < 2147482624
      ∧ (read_line sample_env (world0 (List.replicate 2048 'x' ++ "\nls\n".toList))
          = .ret ((first_line (world0 (List.replicate 2048 'x' ++ "\nls\n".toList)).stdin
                  ++ [NUL]).map some
                ++ List.replicate (1024 *
                    ((first_line (world0 (List.replicate 2048 'x' ++ "\nls\n".toList)).stdin).length
                      / 1024 + 1)
                    - (first_line (world0 (List.replicate 2048 'x' ++ "\nls\n".toList)).stdin).length
                    - 1) none)
              { world0 (List.replicate 2048 'x' ++ "\nls\n".toList) with
                stdin := after_line (world0 (List.replicate 2048 'x' ++ "\nls\n".toList)).stdin }
        ∧ (NUL ∉ first_line (world0 (List.replicate 2048 'x' ++ "\nls\n".toList)).stdin →
            cstr ((first_line (world0 (List.replicate 2048 'x' ++ "\nls\n".toList)).stdin
                  ++ [NUL]).map some
                ++ List.replicate (1024 *
                    ((first_line (world0 (List.replicate 2048 'x' ++ "\nls\n".toList)).stdin).length
                      / 1024 + 1)
                    - (first_line (world0 (List.replicate 2048 'x' ++ "\nls\n".toList)).stdin).length
                    - 1) none)
              = some (first_line (world0 (List.replicate 2048 'x' ++ "\nls\n".toList)).stdin))))
    ∧ first_line (world0 (List.replicate 2048 'x' ++ "\nls\n".toList)).stdin
        = List.replicate 2048 'x'
    ∧ after_line (world0 (List.replicate 2048 'x' ++ "\nls\n".toList)).stdin = "ls\n".toList := by
  have hx : '\n' ∉ List.replicate 2048 'x' := by
    rw [List.mem_replicate]; decide
  have h := first_line_append_newline (List.replicate 2048 'x') "ls\n".toList hx
  have hlen : (first_line (world0 (List.replicate 2048 'x' ++ "\nls\n".toList)).stdin).length
      < 2147482624 := by
    show (first_line (List.replicate 2048 'x' ++ '\n' :: "ls\n".toList)).length < 2147482624
    rw [h.1, List.length_replicate]; decide
  exact ⟨⟨hlen, read_line_returns_first_line sample_env (fun _ => rfl) _ hlen⟩, h.1, h.2⟩

/-- Counterexample to C2 as stated: on a line of 2147482624 characters the
capacity update `bufsize += LSH_RL_BUFSIZE` leaves the range of `int` after the
last character is stored, so `read_line` does not return the line. -/
theorem read_line_int_range_counterexample :
    (first_line (world0 (List.replicate 2147482624 'a')).stdin).length = 2147482624
      ∧ read_line sample_env (world0 (List.replicate 2147482624 'a')) = .undefined
      ∧ ¬ ∃ buffer w, read_line sample_env (world0 (List.replicate 2147482624 'a'))
          = .ret buffer w := by
  have hlen : (first_line (world0 (List.replicate 2147482624 'a')).stdin).length
      = 2147482624 := by
    show (first_line (List.replicate 2147482624 'a')).length = 2147482624
    rw [first_line_replicate, List.length_replicate]
  have hund : read_line sample_env (world0 (List.replicate 2147482624 'a')) = .undefined := by
    unfold read_line
    rw [read_line_state_overflow sample_env (fun _ => rfl) _ (le_of_eq hlen.symm)]
    rfl
  refine ⟨hlen, hund, ?_⟩
  rintro ⟨buffer, w, h⟩
  rw [hund] at h
  exact Result.noConfusion h

/-- C3.  For every argument vector whose first token is `exit`, whatever
follows it, `execute` returns 0 (TERMINATE) in the state it was called in: no
output, no state change.  When the first line of the input tokenizes to such a
vector (allocation succeeding, the line below the `int` range), the command
loop ends after that one iteration whatever its iteration bound: it has printed
one prompt and consumed that line only, the input after it is untouched, and
`main` returns `EXIT_SUCCESS`. -/
theorem exit_terminates_loop (env : Env) (ts : List CStr) (rest : Mem CharPtr) (w : World) :
    execute env (argv ("exit".toList :: ts) rest) w = .ret 0 w
      ∧ ∀ fuel : Nat, (∀ n, env.alloc n = true) → (first_line w.stdin).length < 2147482624 →
          (maximal_runs (input_line w.stdin)).head? = some "exit".toList →
          loop env (fuel + 1) w
              = .ret () { w with stdin := after_line w.stdin, stdout := w.stdout ++ PROMPT }
            ∧ main env (fuel + 1) w
              = .ret EXIT_SUCCESS
                  { w with stdin := after_line w.stdin, stdout := w.stdout ++ PROMPT } := by
  have hexec : ∀ (us : List CStr) (r : Mem CharPtr) (v : World),
      execute env (argv ("exit".toList :: us) r) v = .ret 0 v := by
    intro us r v
    rw [execute_cons]
    simp [lsh_exit]
  refine ⟨hexec ts rest w, ?_⟩
  intro fuel hA hlen hhead
  have hloop : loop env (fuel + 1) w
      = .ret () { w with stdin := after_line w.stdin, stdout := w.stdout ++ PROMPT } := by
    rw [loop_step env hA fuel w hlen]
    cases hruns : maximal_runs (input_line w.stdin) with
    | nil => rw [hruns] at hhead; simp at hhead
    | cons t us =>
      rw [hruns] at hhead
      simp only [List.head?_cons, Option.some.injEq] at hhead
      subst hhead
      rw [hexec]
      simp [Result.bind]
  refine ⟨hloop, ?_⟩
  unfold main
  rw [hloop]
  rfl

set_option maxRecDepth 100000 in
/-- Witness of C3: on the input `exit 1`, newline, `ls`, newline, the loop
stops after the first line, leaves the second one unread, and `main` returns 0. -/
theorem exit_terminates_loop_witness :
    (∀ n, sample_env.alloc n = true)
      ∧ (first_line (world0 "exit 1\nls\n".toList).stdin).length < 2147482624
      ∧ (maximal_runs (input_line (world0 "exit 1\nls\n".toList).stdin)).head?
          = some "exit".toList
      ∧ (loop sample_env (4 + 1) (world0 "exit 1\nls\n".toList)
            = .ret () { world0 "exit 1\nls\n".toList with
                stdin := after_line (world0 "exit 1\nls\n".toList).stdin,
                stdout := (world0 "exit 1\nls\n".toList).stdout ++ PROMPT }
          ∧ main sample_env (4 + 1) (world0 "exit 1\nls\n".toList)
            = .ret EXIT_SUCCESS { world0 "exit 1\nls\n".toList with
                stdin := after_line (world0 "exit 1\nls\n".toList).stdin,
                stdout := (world0 "exit 1\nls\n".toList).stdout ++ PROMPT })
      ∧ main sample_env 5 (world0 "exit 1\nls\n".toList)
          = .ret 0 { world0 "ls\n".toList with stdout := "> ".toList } :=
  ⟨fun _ => rfl, by decide, by decide,
    (exit_terminates_loop sample_env [] [] (world0 "exit 1\nls\n".toList)).2 4
      (fun _ => rfl) (by decide) (by decide),
    by decide⟩

/-- C4.  The `exit` builtin is the sole source of TERMINATE: for every argument
vector and every behaviour of the operating system, `execute` returns 0 if and
only if the vector is non-empty and its first token is `exit`.  In every other
case in which the interpreter gets control back (the empty vector, `cd` with
`chdir` succeeding or failing, `help`, and an external command when process
creation failed or the child, whether it could be executed or not, reported an
exited or signaled status) it returns 1 (CONTINUE); in the remaining cases (the
process is the child created by `fork`, or the child never terminates)
`execute` does not return at all. -/
theorem execute_terminate_iff_exit (env : Env) (ts : List CStr) (rest : Mem CharPtr)
    (w : World) :
    ((∃ w1, execute env (argv ts rest) w = .ret 0 w1) ↔ ts.head? = some "exit".toList)
      ∧ (ts.head? ≠ some "exit".toList →
          ((ts = [] ∨ ts.head? = some "cd".toList ∨ ts.head? = some "help".toList
              ∨ parent_resumes (env.fork w) = true) →
            ∃ w1, execute env (argv ts rest) w = .ret 1 w1)
          ∧ (¬ (ts = [] ∨ ts.head? = some "cd".toList ∨ ts.head? = some "help".toList
              ∨ parent_resumes (env.fork w) = true) →
            ∀ v w1, execute env (argv ts rest) w ≠ .ret v w1)) := by
  cases ts with
  | nil => simp [execute_nil]
  | cons t us =>
    rw [execute_cons]
    by_cases h1 : t = "cd".toList
    · subst h1
      have hcd : ∃ w1, lsh_cd env (argv ("cd".toList :: us) rest) w = .ret 1 w1 := by
        cases us with
        | nil => exact ⟨_, lsh_cd_no_arg env _ rest w⟩
        | cons p vs =>
          rw [lsh_cd_arg]
          cases env.chdir w p <;> exact ⟨_, rfl⟩
      obtain ⟨w1, hw1⟩ := hcd
      rw [if_pos rfl, hw1]
      simp
    · by_cases h2 : t = "help".toList
      · subst h2
        simp [lsh_help_eq]
      · by_cases h3 : t = "exit".toList
        · subst h3
          simp [lsh_exit]
        · simp only [h1, h2, h3, if_false, List.head?_cons, Option.some.injEq, false_or,
            ne_eq, not_false_eq_true, true_implies, iff_false, not_exists,
            List.cons_ne_nil]
          have hl := launch_returns_iff env t us rest w
          refine ⟨?_, ?_, ?_⟩
          · intro w1 h
            by_cases hp : parent_resumes (env.fork w) = true
            · obtain ⟨w2, hw2⟩ := hl.1 hp
              rw [hw2] at h
              simp at h
            · exact hl.2 (by simpa using hp) 0 w1 h
          · exact hl.1
          · intro hp
            exact hl.2 (by simpa using hp)

/-- Witness of C4: `exit` gives 0; `ls`, whose child exits, gives 1; the empty
vector gives 1. -/
theorem execute_terminate_iff_exit_witness :
    (∃ w1, execute sample_env (argv ["exit".toList, "3".toList] []) (world0 []) = .ret 0 w1)
      ∧ ((["ls".toList] : List CStr).head? ≠ some "exit".toList
        ∧ ((["ls".toList] : List CStr) = [] ∨ (["ls".toList] : List CStr).head? = some "cd".toList
            ∨ (["ls".toList] : List CStr).head? = some "help".toList
            ∨ parent_resumes (sample_env.fork (world0 [])) = true)
        ∧ ∃ w1, execute sample_env (argv ["ls".toList] []) (world0 []) = .ret 1 w1)
      ∧ (([] : List CStr).head? ≠ some "exit".toList
        ∧ ∃ w1, execute sample_env (argv [] []) (world0 []) = .ret 1 w1) :=
  ⟨(execute_terminate_iff_exit sample_env ["exit".toList, "3".toList] [] (world0 [])).1.2 rfl,
    ⟨by decide, Or.inr (Or.inr (Or.inr rfl)),
      ((execute_terminate_iff_exit sample_env ["ls".toList] [] (world0 [])).2 (by decide)).1
        (Or.inr (Or.inr (Or.inr rfl)))⟩,
    ⟨by decide,
      ((execute_terminate_iff_exit sample_env [] [] (world0 [])).2 (by decide)).1
        (Or.inl rfl)⟩⟩

/-- C5.  Dispatch of the empty argument vector is a no-op: `execute` returns 1
(CONTINUE) in the state it was called in, so nothing was written, no system
call was made (no `chdir`, no `fork`) and the working directory is the same;
dispatching it any number of times leaves the state unchanged; and every line
that is empty or holds delimiter characters only tokenizes to the empty vector
(allocation succeeding). -/
theorem empty_vector_noop (env : Env) (rest : Mem CharPtr) (w : World) :
    execute env (argv [] rest) w = .ret 1 w
      ∧ (∀ n : Nat, dispatch_times env (argv [] rest) n w = .ret 1 w)
      ∧ ∀ line : CStr, (∀ n, env.alloc n = true) → (∀ c ∈ line, c ∈ LSH_TOK_DELIM) →
          split_line env line w = .ret (argv [] (List.replicate 63 none)) w := by
  refine ⟨execute_nil env rest w, dispatch_times_nil env rest w, ?_⟩
  intro line hA hline
  have hruns := maximal_runs_all_delim line hline
  unfold split_line
  rw [split_line_state_ok env hA line w (by rw [hruns]; decide), hruns]
  rfl

/-- Witness of C5: the line of a blank, a tab and a blank tokenizes to the
empty vector, and the empty line does. -/
theorem empty_vector_noop_witness :
    (∀ n, sample_env.alloc n = true)
      ∧ (∀ c ∈ " \t ".toList, c ∈ LSH_TOK_DELIM)
      ∧ split_line sample_env " \t ".toList (world0 [])
          = .ret (argv [] (List.replicate 63 none)) (world0 [])
      ∧ split_line sample_env [] (world0 [])
          = .ret (argv [] (List.replicate 63 none)) (world0 []) :=
  ⟨fun _ => rfl, by decide,
    (empty_vector_noop sample_env [] (world0 [])).2.2 " \t ".toList (fun _ => rfl) (by decide),
    (empty_vector_noop sample_env [] (world0 [])).2.2 [] (fun _ => rfl) (by decide)⟩

/-- C6.  For every argument vector `cd p ...`: when `chdir` succeeds on `p`, the
path `p` was passed to it unmodified, the working directory afterwards is the
directory `p` names, nothing is written and `execute` returns 1 (CONTINUE);
when `chdir` fails, the working directory is unchanged, the diagnostic `lsh: `
followed by the message of the failure is written to the error stream,
standard output is unchanged and `execute` returns 1. -/
theorem cd_changes_directory (env : Env) (p : CStr) (ts : List CStr) (rest : Mem CharPtr)
    (w : World) :
    (∀ dir, env.chdir w p = .ok dir →
        execute env (argv ("cd".toList :: p :: ts) rest) w
          = .ret 1 { w with cwd := dir, trace := w.trace ++ [.chdir p] })
      ∧ (∀ e, env.chdir w p = .error e →
        execute env (argv ("cd".toList :: p :: ts) rest) w
          = .ret 1 { w with
              stderr := w.stderr ++ ("lsh: ".toList ++ env.strerror e ++ "\n".toList),
              errno := e, trace := w.trace ++ [.chdir p] }) := by
  constructor
  · intro dir h
    rw [execute_cons, if_pos rfl, lsh_cd_arg, h]
  · intro e h
    rw [execute_cons, if_pos rfl, lsh_cd_arg, h]
    simp [perror, eprint]

/-- Witness of C6: `cd /tmp` where `/tmp` exists, `cd /does/not/exist` where it
does not. -/
theorem cd_changes_directory_witness :
    sample_env.chdir (world0 []) "/tmp".toList = .ok "/tmp".toList
      ∧ execute sample_env (argv ["cd".toList, "/tmp".toList] []) (world0 [])
          = .ret 1 { world0 [] with
              cwd := "/tmp".toList, trace := (world0 []).trace ++ [.chdir "/tmp".toList] }
      ∧ sample_env.chdir (world0 []) "/does/not/exist".toList = .error 2
      ∧ execute sample_env (argv ["cd".toList, "/does/not/exist".toList] []) (world0 [])
          = .ret 1 { world0 [] with
              stderr := (world0 []).stderr
                ++ ("lsh: ".toList ++ sample_env.strerror 2 ++ "\n".toList),
              errno := 2, trace := (world0 []).trace ++ [.chdir "/does/not/exist".toList] } :=
  ⟨rfl,
    (cd_changes_directory sample_env "/tmp".toList [] [] (world0 [])).1 "/tmp".toList rfl,
    rfl,
    (cd_changes_directory sample_env "/does/not/exist".toList [] [] (world0 [])).2 2 rfl⟩

/-- C7.  Dispatch of the one-element vector `cd` never calls `chdir`: it returns
1 (CONTINUE) in the state it was called in but for the error stream, to which
the diagnostic is appended; standard output, the working directory and the
trace of system calls are unchanged. -/
theorem cd_without_argument (env : Env) (rest : Mem CharPtr) (w : World) :
    execute env (argv ["cd".toList] rest) w
      = .ret 1 { stdin := w.stdin, stdout := w.stdout,
                 stderr := w.stderr ++ "Expected argument to \"cd\"\n".toList,
                 cwd := w.cwd, errno := w.errno, trace := w.trace } := by
  rw [execute_cons, if_pos rfl, lsh_cd_no_arg]
  rfl

/-- C8.  For every argument vector whose first token is `help`, whatever
follows it, `execute` returns 1 (CONTINUE) and appends `help_text` to standard
output, changing nothing else; the lines of that text that hold a tab and a
builtin name are the names of the builtin table in the table's order, and each
name occurs in the text exactly once. -/
theorem help_lists_builtins (env : Env) (ts : List CStr) (rest : Mem CharPtr) (w : World) :
    execute env (argv ("help".toList :: ts) rest) w
        = .ret 1 { w with stdout := w.stdout ++ help_text }
      ∧ (lines help_text).filter (fun l => decide (l ∈ builtin_str.map (fun n => '\t' :: n)))
          = builtin_str.map (fun n => '\t' :: n)
      ∧ builtin_str = ["cd".toList, "help".toList, "exit".toList]
      ∧ builtin_str.map (fun n => occurrences n help_text) = [1, 1, 1] := by
  refine ⟨?_, by decide, rfl, by decide⟩
  rw [execute_cons, if_neg (by decide), if_pos rfl, lsh_help_eq]

/-- C9.  `launch` returns 1 (CONTINUE) in the parent for every argument vector
and every outcome.  When process creation failed the diagnostic `lsh: ` with
the message of the failure is written to the error stream and no `waitpid` is
made.  When the child was created, whatever stopped statuses it reports first,
`launch` returns 1 at its first exited or signaled status, whatever the exit
code or the signal: the value and the state do not depend on that status. -/
theorem launch_returns_continue (env : Env) (args : Mem CharPtr) (w : World) :
    (∀ e, env.fork w = .failed e →
        launch env args w
          = .ret 1 { w with
              stderr := w.stderr ++ ("lsh: ".toList ++ env.strerror e ++ "\n".toList),
              errno := e, trace := w.trace ++ [.fork] })
      ∧ (∀ (pid : Nat) (stops : List Nat) (st : WaitStatus) (later : List WaitStatus),
        env.fork w = .parent pid (stops.map .stopped ++ st :: later) →
        (WIFEXITED st = true ∨ WIFSIGNALED st = true) →
        launch env args w
          = .ret 1 { w with
              trace := w.trace ++ .fork :: List.replicate (stops.length + 1) (.waitpid pid) }) := by
  constructor
  · intro e h
    rw [launch_failed env args w e h]
    simp [perror, eprint]
  · intro pid stops st later h hst
    exact launch_parent_terminal env args w pid stops st later h hst

/-- Witness of C9: the vectors `true` (the child exits with status 0) and
`false` (the child exits with status 1) both give 1, in the same state. -/
theorem launch_returns_continue_witness :
    (sample_env.fork (world0 []) = .parent 1 (([] : List Nat).map .stopped ++ .exited 0 :: [])
      ∧ (WIFEXITED (.exited 0) = true ∨ WIFSIGNALED (.exited 0) = true)
      ∧ launch sample_env (argv ["true".toList] []) (world0 [])
          = .ret 1 { world0 [] with
              trace := (world0 []).trace
                ++ .fork :: List.replicate (([] : List Nat).length + 1) (.waitpid 1) })
    ∧ ({ sample_env with fork := fun _ => .parent 1 [.exited 1] }.fork (world0 [])
          = .parent 1 (([] : List Nat).map .stopped ++ .exited 1 :: [])
      ∧ (WIFEXITED (.exited 1) = true ∨ WIFSIGNALED (.exited 1) = true)
      ∧ launch { sample_env with fork := fun _ => .parent 1 [.exited 1] }
            (argv ["false".toList] []) (world0 [])
          = .ret 1 { world0 [] with
              trace := (world0 []).trace
                ++ .fork :: List.replicate (([] : List Nat).length + 1) (.waitpid 1) }) :=
  ⟨⟨rfl, Or.inl rfl,
      (launch_returns_continue sample_env (argv ["true".toList] []) (world0 [])).2
        1 [] (.exited 0) [] rfl (Or.inl rfl)⟩,
    ⟨rfl, Or.inl rfl,
      (launch_returns_continue { sample_env with fork := fun _ => .parent 1 [.exited 1] }
        (argv ["false".toList] []) (world0 [])).2 1 [] (.exited 1) [] rfl (Or.inl rfl)⟩⟩

/-- C10.  Dispatcher routing.  The builtin table pairs `cd` with `lsh_cd`,
`help` with `lsh_help` and `exit` with `lsh_exit`.  For every non-empty
argument vector: when the first token equals the name at index `i` of the
table, `execute` is the call of the handler at index `i` with the full vector
(same value, same state), and that call creates no process; when the first
token equals no name of the table, `execute` is the call of `launch` with the
full, unmodified vector, and in the child `launch` passes the first token as
the program and the vector as its arguments to `execvp`. -/
theorem execute_routing (env : Env) (t : CStr) (ts : List CStr) (rest : Mem CharPtr)
    (w : World) :
    (builtin_str = ["cd".toList, "help".toList, "exit".toList]
      ∧ builtin_func.get? 0 = some lsh_cd
      ∧ builtin_func.get? 1 = some (fun _ _ w => lsh_help w)
      ∧ builtin_func.get? 2 = some (fun _ _ w => lsh_exit w))
      ∧ (∀ (i : Nat) (func : Env → Mem CharPtr → World → Result Int),
          builtin_str.get? i = some t → builtin_func.get? i = some func →
          execute env (argv (t :: ts) rest) w = func env (argv (t :: ts) rest) w
            ∧ ∀ v w1, func env (argv (t :: ts) rest) w = .ret v w1 →
                forks w1.trace = forks w.trace)
      ∧ (t ∉ builtin_str →
          execute env (argv (t :: ts) rest) w = launch env (argv (t :: ts) rest) w
            ∧ (env.fork w = .child →
                ∀ e, env.execvp { w with trace := w.trace ++ [.fork] } t (argv (t :: ts) rest)
                    = some e →
                  launch env (argv (t :: ts) rest) w
                    = .exited EXIT_FAILURE
                        (perror env "lsh".toList
                          { w with
                            trace := w.trace ++ [.fork, .execvp t (argv (t :: ts) rest)],
                            errno := e }))
            ∧ (env.fork w = .child →
                env.execvp { w with trace := w.trace ++ [.fork] } t (argv (t :: ts) rest)
                    = none →
                  launch env (argv (t :: ts) rest) w
                    = .exec t (argv (t :: ts) rest)
                        { w with
                          trace := w.trace ++ [.fork, .execvp t (argv (t :: ts) rest)] })) := by
  refine ⟨⟨rfl, rfl, rfl, rfl⟩, ?_, ?_⟩
  · intro i func hs hf
    rw [execute_cons]
    match i, hs, hf with
    | 0, hs, hf =>
      simp only [builtin_str, builtin_func, List.get?_cons_zero, Option.some.injEq] at hs hf
      subst hs; subst hf
      refine ⟨by rw [if_pos rfl], ?_⟩
      intro v w1 h
      cases ts with
      | nil =>
        rw [lsh_cd_no_arg] at h
        injection h with _ h2
        rw [← h2]; rfl
      | cons p us =>
        rw [lsh_cd_arg] at h
        cases hc : env.chdir w p with
        | ok d =>
          rw [hc] at h
          injection h with _ h2
          rw [← h2]; simp [forks]
        | error e =>
          rw [hc] at h
          injection h with _ h2
          rw [← h2]; simp [forks, perror, eprint]
    | 1, hs, hf =>
      simp only [builtin_str, builtin_func, List.get?_cons_succ, List.get?_cons_zero,
        Option.some.injEq] at hs hf
      subst hs; subst hf
      refine ⟨by rw [if_neg (by decide), if_pos rfl], ?_⟩
      intro v w1 h
      simp only [lsh_help_eq] at h
      injection h with _ h2
      rw [← h2]
    | 2, hs, hf =>
      simp only [builtin_str, builtin_func, List.get?_cons_succ, List.get?_cons_zero,
        Option.some.injEq] at hs hf
      subst hs; subst hf
      refine ⟨by rw [if_neg (by decide), if_neg (by decide), if_pos rfl], ?_⟩
      intro v w1 h
      simp only [lsh_exit] at h
      injection h with _ h2
      rw [← h2]
    | n + 3, hs, _ => simp [builtin_str] at hs
  · intro ht
    have h1 : t ≠ "cd".toList := fun e => ht (by rw [e]; decide)
    have h2 : t ≠ "help".toList := fun e => ht (by rw [e]; decide)
    have h3 : t ≠ "exit".toList := fun e => ht (by rw [e]; decide)
    refine ⟨by rw [execute_cons, if_neg h1, if_neg h2, if_neg h3], ?_, ?_⟩
    · intro hf e he
      rw [launch_child env t ts rest w hf, he]
    · intro hf he
      rw [launch_child env t ts rest w hf, he]

/-- Witness of C10: `cd` is at index 0 of the table and is routed to `lsh_cd`;
`cdx`, `CD` and `exi` are no builtin names and are routed to `launch`; in a
child that cannot execute `cdx` the vector reaches `execvp` unmodified. -/
theorem execute_routing_witness :
    (builtin_str.get? 0 = some "cd".toList ∧ builtin_func.get? 0 = some lsh_cd
      ∧ execute sample_env (argv ("cd".toList :: ["/tmp".toList]) []) (world0 [])
          = lsh_cd sample_env (argv ("cd".toList :: ["/tmp".toList]) []) (world0 []))
    ∧ ("cdx".toList ∉ builtin_str
      ∧ execute sample_env (argv ("cdx".toList :: ["-l".toList]) []) (world0 [])
          = launch sample_env (argv ("cdx".toList :: ["-l".toList]) []) (world0 []))
    ∧ ("CD".toList ∉ builtin_str
      ∧ execute sample_env (argv ("CD".toList :: []) []) (world0 [])
          = launch sample_env (argv ("CD".toList :: []) []) (world0 []))
    ∧ ("exi".toList ∉ builtin_str
      ∧ execute sample_env (argv ("exi".toList :: []) []) (world0 [])
          = launch sample_env (argv ("exi".toList :: []) []) (world0 []))
    ∧ (child_env.fork (world0 []) = .child
      ∧ child_env.execvp { world0 [] with trace := (world0 []).trace ++ [.fork] } "cdx".toList
          (argv ("cdx".toList :: ["-l".toList]) []) = some 2
      ∧ launch child_env (argv ("cdx".toList :: ["-l".toList]) []) (world0 [])
          = .exited EXIT_FAILURE
              (perror child_env "lsh".toList
                { world0 [] with
                  trace := (world0 []).trace
                    ++ [.fork, .execvp "cdx".toList (argv ("cdx".toList :: ["-l".toList]) [])],
                  errno := 2 })) :=
  ⟨⟨rfl, rfl,
      ((execute_routing sample_env "cd".toList ["/tmp".toList] [] (world0 [])).2.1
        0 lsh_cd rfl rfl).1⟩,
    ⟨by decide,
      ((execute_routing sample_env "cdx".toList ["-l".toList] [] (world0 [])).2.2
        (by decide)).1⟩,
    ⟨by decide,
      ((execute_routing sample_env "CD".toList [] [] (world0 [])).2.2 (by decide)).1⟩,
    ⟨by decide,
      ((execute_routing sample_env "exi".toList [] [] (world0 [])).2.2 (by decide)).1⟩,
    ⟨rfl, rfl,
      ((execute_routing child_env "cdx".toList ["-l".toList] [] (world0 [])).2.2
        (by decide)).2.1 rfl 2 rfl⟩⟩

/-- C11, as amended.  End-of-input does not end the command loop.  Allocation
succeeding: once the input is exhausted the loop uses up every iteration bound
without returning, and so does `main`; more generally, on every input stream
that holds no `exit` command the loop never returns, whatever its iteration
bound.  Whenever `main` does return, the exit status is `EXIT_SUCCESS`. -/
theorem eof_does_not_end_loop (env : Env) (hA : ∀ n, env.alloc n = true) (w : World) :
    (w.stdin = [] →
        ∀ fuel, loop env fuel w = .outOfFuel ∧ main env fuel w = .outOfFuel)
      ∧ (no_exit_command w.stdin = true →
        ∀ fuel u, loop env fuel w ≠ .ret () u ∧ ∀ v, main env fuel w ≠ .ret v u)
      ∧ ∀ fuel v u, main env fuel w = .ret v u → v = EXIT_SUCCESS := by
  refine ⟨?_, ?_, ?_⟩
  · intro h fuel
    have hl := loop_eof env hA fuel w h
    exact ⟨hl, by rw [main, hl]; rfl⟩
  · intro h fuel u
    have hl := loop_never_returns env hA fuel w h
    refine ⟨hl u, ?_⟩
    intro v hm
    unfold main at hm
    cases hloop : loop env fuel w with
    | ret x w1 =>
      cases x
      exact hl w1 hloop
    | exited s w1 => rw [hloop] at hm; simp [Result.bind] at hm
    | exec f a w1 => rw [hloop] at hm; simp [Result.bind] at hm
    | blocked w1 => rw [hloop] at hm; simp [Result.bind] at hm
    | undefined => rw [hloop] at hm; simp [Result.bind] at hm
    | outOfFuel => rw [hloop] at hm; simp [Result.bind] at hm
  · intro fuel v u hm
    unfold main at hm
    cases hloop : loop env fuel w with
    | ret x w1 =>
      rw [hloop] at hm
      simp only [Result.bind] at hm
      injection hm with h1 _
      exact h1.symm
    | exited s w1 => rw [hloop] at hm; simp [Result.bind] at hm
    | exec f a w1 => rw [hloop] at hm; simp [Result.bind] at hm
    | blocked w1 => rw [hloop] at hm; simp [Result.bind] at hm
    | undefined => rw [hloop] at hm; simp [Result.bind] at hm
    | outOfFuel => rw [hloop] at hm; simp [Result.bind] at hm

/-- Witness of C11 as amended: on the empty input, and on the input `help`,
newline, the loop does not return within 7 iterations. -/
theorem eof_does_not_end_loop_witness :
    (∀ n, sample_env.alloc n = true)
      ∧ ((world0 []).stdin = []
        ∧ loop sample_env 7 (world0 []) = .outOfFuel
        ∧ main sample_env 7 (world0 []) = .outOfFuel)
      ∧ (no_exit_command (world0 "help\n".toList).stdin = true
        ∧ ∀ u, loop sample_env 7 (world0 "help\n".toList) ≠ .ret () u) :=
  ⟨fun _ => rfl,
    ⟨rfl,
      ((eof_does_not_end_loop sample_env (fun _ => rfl) (world0 [])).1 rfl 7).1,
      ((eof_does_not_end_loop sample_env (fun _ => rfl) (world0 [])).1 rfl 7).2⟩,
    ⟨by decide,
      fun u => ((eof_does_not_end_loop sample_env (fun _ => rfl)
        (world0 "help\n".toList)).2.1 (by decide) 7 u).1⟩⟩

/-- Counterexample to C11 as stated: the finite input `ls`, newline, holds no
`exit` command, yet there is no number of iterations after which the loop
stops and `main` returns: after the line is dispatched the stream is at
end-of-input and every further iteration reads an empty line. -/
theorem eof_loop_counterexample :
    no_exit_command (world0 "ls\n".toList).stdin = true
      ∧ (¬ ∃ fuel u, loop sample_env fuel (world0 "ls\n".toList) = .ret () u)
      ∧ (¬ ∃ fuel v u, main sample_env fuel (world0 "ls\n".toList) = .ret v u)
      ∧ ∀ fuel, loop sample_env (fuel + 1) (world0 "ls\n".toList) = .outOfFuel := by
  have hno : no_exit_command (world0 "ls\n".toList).stdin = true := by decide
  have hl := loop_never_returns sample_env (fun _ => rfl)
  refine ⟨hno, ?_, ?_, ?_⟩
  · rintro ⟨fuel, u, h⟩
    exact hl fuel _ hno u h
  · rintro ⟨fuel, v, u, h⟩
    unfold main at h
    cases hloop : loop sample_env fuel (world0 "ls\n".toList) with
    | ret x w1 =>
      cases x
      exact hl fuel _ hno w1 hloop
    | exited s w1 => rw [hloop] at h; simp [Result.bind] at h
    | exec f a w1 => rw [hloop] at h; simp [Result.bind] at h
    | blocked w1 => rw [hloop] at h; simp [Result.bind] at h
    | undefined => rw [hloop] at h; simp [Result.bind] at h
    | outOfFuel => rw [hloop] at h; simp [Result.bind] at h
  · intro fuel
    rw [loop_step sample_env (fun _ => rfl) fuel _ (by decide)]
    have hruns : maximal_runs (input_line (world0 "ls\n".toList).stdin) = ["ls".toList] := by
      decide
    rw [hruns, execute_cons, if_neg (by decide), if_neg (by decide), if_neg (by decide),
      launch_parent_terminal sample_env _ _ 1 [] (.exited 0) [] rfl (Or.inl rfl)]
    simp only [Result.bind]
    rw [if_pos (by decide)]
    exact loop_eof sample_env (fun _ => rfl) fuel _ (by decide)

/-- C12.  End-of-input is indistinguishable from a blank line.  At
end-of-input with allocation succeeding, `read_line` returns the block that
holds the empty line, the same block as for a line that is a newline alone;
`split_line` returns the empty vector on it; `execute` returns 1 (CONTINUE) on
that vector in the unchanged state; so one loop iteration only prints the
prompt and goes on, and the loop, the stream being exhausted for good, never
returns: it uses up every iteration bound. -/
theorem eof_is_blank_line (env : Env) (hA : ∀ n, env.alloc n = true) (w : World)
    (h : w.stdin = []) :
    read_line env w = .ret (some NUL :: List.replicate 1023 none) w
      ∧ (∀ rest, read_line env { w with stdin := '\n' :: rest }
          = .ret (some NUL :: List.replicate 1023 none) { w with stdin := rest })
      ∧ cstr (some NUL :: List.replicate 1023 none) = some []
      ∧ split_line env [] w = .ret (argv [] (List.replicate 63 none)) w
      ∧ execute env (argv [] (List.replicate 63 none)) w = .ret 1 w
      ∧ (∀ fuel, loop env (fuel + 1) w = loop env fuel (print PROMPT w))
      ∧ ∀ fuel, loop env fuel w = .outOfFuel := by
  refine ⟨?_, ?_, ?_, ?_, execute_nil env _ w, ?_, ?_⟩
  · rw [read_line_empty env hA w (by rw [h]; rfl)]
    cases w
    simp only at h
    subst h
    rfl
  · intro rest
    exact read_line_empty env hA { w with stdin := '\n' :: rest } rfl
  · simp [cstr]
  · unfold split_line
    rw [split_line_state_ok env hA [] w (by decide)]
    rfl
  · intro fuel
    exact loop_eof_step env hA fuel w h
  · intro fuel
    exact loop_eof env hA fuel w h

/-- Witness of C12, on the empty input. -/
theorem eof_is_blank_line_witness :
    (∀ n, sample_env.alloc n = true) ∧ (world0 []).stdin = []
      ∧ read_line sample_env (world0 []) = .ret (some NUL :: List.replicate 1023 none) (world0 [])
      ∧ read_line sample_env (world0 "\n".toList)
          = .ret (some NUL :: List.replicate 1023 none) (world0 [])
      ∧ ∀ fuel, loop sample_env fuel (world0 []) = .outOfFuel :=
  ⟨fun _ => rfl, rfl,
    (eof_is_blank_line sample_env (fun _ => rfl) (world0 []) rfl).1,
    (eof_is_blank_line sample_env (fun _ => rfl) (world0 []) rfl).2.1 [],
    (eof_is_blank_line sample_env (fun _ => rfl) (world0 []) rfl).2.2.2.2.2.2⟩

/-- C13.  In the parent branch of `launch` the wait loop ends exactly at the
first status reported for the child that is exited or signaled.  For every
sequence of reports: when it holds such a status, `launch` returns 1 after one
`waitpid` for each report before the first such status, all of which are
stopped statuses, and one for that status, the later reports being left
unread; when it holds stopped statuses only, `launch` does not return: it stays
in `waitpid` after one call for each report. -/
theorem wait_ends_at_first_terminal (env : Env) (args : Mem CharPtr) (w : World) (pid : Nat)
    (reports : List WaitStatus) (hf : env.fork w = .parent pid reports) :
    (reports.any (fun s => WIFEXITED s || WIFSIGNALED s) = true →
        launch env args w
          = .ret 1 { w with
              trace := w.trace ++ .fork :: List.replicate
                ((reports.takeWhile (fun s => !WIFEXITED s && !WIFSIGNALED s)).length + 1)
                (.waitpid pid) })
      ∧ (reports.any (fun s => WIFEXITED s || WIFSIGNALED s) = false →
        launch env args w
          = .blocked { w with
              trace := w.trace ++ .fork :: List.replicate (reports.length + 1) (.waitpid pid) })
      ∧ ∀ s ∈ reports.takeWhile (fun s => !WIFEXITED s && !WIFSIGNALED s),
          ∃ sig, s = .stopped sig := by
  refine ⟨?_, ?_, ?_⟩
  · intro h
    simp only [launch, hf]
    rw [wait_loop_eq, if_pos h]
    simp [Result.bind]
  · intro h
    simp only [launch, hf]
    rw [wait_loop_eq, if_neg (by simp [h])]
    simp [Result.bind]
  · intro s hs
    have h := List.mem_takeWhile_imp hs
    exact (not_terminal_iff_stopped s).mp h

/-- Witness of C13: a child that is stopped twice and then exits with status 3
costs three calls of `waitpid`, the report after the exit is not read; a child
that is only ever stopped keeps `launch` waiting. -/
theorem wait_ends_at_first_terminal_witness :
    ({ sample_env with
          fork := fun _ => .parent 7 [.stopped 19, .stopped 20, .exited 3, .stopped 1] }.fork
          (world0 [])
        = .parent 7 [.stopped 19, .stopped 20, .exited 3, .stopped 1]
      ∧ ([WaitStatus.stopped 19, .stopped 20, .exited 3, .stopped 1].any
          (fun s => WIFEXITED s || WIFSIGNALED s) = true)
      ∧ launch { sample_env with
              fork := fun _ => .parent 7 [.stopped 19, .stopped 20, .exited 3, .stopped 1] }
            (argv ["vi".toList] []) (world0 [])
          = .ret 1 { world0 [] with
              trace := (world0 []).trace ++ .fork :: List.replicate
                (([WaitStatus.stopped 19, .stopped 20, .exited 3, .stopped 1].takeWhile
                  (fun s => !WIFEXITED s && !WIFSIGNALED s)).length + 1) (.waitpid 7) })
    ∧ launch { sample_env with
            fork := fun _ => .parent 7 [.stopped 19, .stopped 20, .exited 3, .stopped 1] }
          (argv ["vi".toList] []) (world0 [])
        = .ret 1 { world0 [] with trace := [.fork, .waitpid 7, .waitpid 7, .waitpid 7] }
    ∧ ({ sample_env with fork := fun _ => .parent 7 [.stopped 19] }.fork (world0 [])
        = .parent 7 [.stopped 19]
      ∧ ([WaitStatus.stopped 19].any (fun s => WIFEXITED s || WIFSIGNALED s) = false)
      ∧ launch { sample_env with fork := fun _ => .parent 7 [.stopped 19] }
            (argv ["vi".toList] []) (world0 [])
          = .blocked { world0 [] with
              trace := (world0 []).trace
                ++ .fork :: List.replicate ([WaitStatus.stopped 19].length + 1) (.waitpid 7) }) :=
  ⟨⟨rfl, by decide,
      (wait_ends_at_first_terminal
        { sample_env with
          fork := fun _ => .parent 7 [.stopped 19, .stopped 20, .exited 3, .stopped 1] }
        (argv ["vi".toList] []) (world0 []) 7 _ rfl).1 (by decide)⟩,
    by decide,
    ⟨rfl, by decide,
      (wait_ends_at_first_terminal { sample_env with fork := fun _ => .parent 7 [.stopped 19] }
        (argv ["vi".toList] []) (world0 []) 7 _ rfl).2.1 (by decide)⟩⟩

/-- C14.  In the child branch of `launch` (`fork` returned 0) control never
returns to the caller.  `launch` does not return, whatever it is given; on an
argument vector, when `execvp` fails the child writes `lsh: ` and the message
of the failure to the error stream and exits with `EXIT_FAILURE`, which is not
0, and when it succeeds the image is replaced; so `execute` on a command that
is no builtin does not return, and a loop iteration that dispatches such a
command ends the child: no further iteration is made. -/
theorem child_never_returns (env : Env) (w : World) (hf : env.fork w = .child) :
    (∀ (args : Mem CharPtr) (v : Int) (u : World), launch env args w ≠ .ret v u)
      ∧ (∀ (t : CStr) (ts : List CStr) (rest : Mem CharPtr) (e : Nat),
          env.execvp { w with trace := w.trace ++ [.fork] } t (argv (t :: ts) rest) = some e →
          launch env (argv (t :: ts) rest) w
            = .exited EXIT_FAILURE
                { w with
                  stderr := w.stderr ++ ("lsh: ".toList ++ env.strerror e ++ "\n".toList),
                  errno := e,
                  trace := w.trace ++ [.fork, .execvp t (argv (t :: ts) rest)] })
      ∧ (∀ (t : CStr) (ts : List CStr) (rest : Mem CharPtr),
          env.execvp { w with trace := w.trace ++ [.fork] } t (argv (t :: ts) rest) = none →
          launch env (argv (t :: ts) rest) w
            = .exec t (argv (t :: ts) rest)
                { w with trace := w.trace ++ [.fork, .execvp t (argv (t :: ts) rest)] })
      ∧ EXIT_FAILURE ≠ 0
      ∧ (∀ (t : CStr) (ts : List CStr) (rest : Mem CharPtr) (v : Int) (u : World),
          t ∉ builtin_str → execute env (argv (t :: ts) rest) w ≠ .ret v u)
      ∧ ∀ (fuel : Nat) (w0 : World) (t : CStr) (ts : List CStr),
          (∀ n, env.alloc n = true) → (first_line w0.stdin).length < 2147482624 →
          maximal_runs (input_line w0.stdin) = t :: ts → t ∉ builtin_str →
          w = { w0 with stdin := after_line w0.stdin, stdout := w0.stdout ++ PROMPT } →
          (∃ u, loop env (fuel + 1) w0 = .exited EXIT_FAILURE u)
            ∨ ∃ file args u, loop env (fuel + 1) w0 = .exec file args u := by
  have hexec : ∀ (t : CStr) (ts : List CStr) (rest : Mem CharPtr), t ∉ builtin_str →
      execute env (argv (t :: ts) rest) w = launch env (argv (t :: ts) rest) w := by
    intro t ts rest ht
    have h1 : t ≠ "cd".toList := fun e => ht (by rw [e]; decide)
    have h2 : t ≠ "help".toList := fun e => ht (by rw [e]; decide)
    have h3 : t ≠ "exit".toList := fun e => ht (by rw [e]; decide)
    rw [execute_cons, if_neg h1, if_neg h2, if_neg h3]
  refine ⟨fun args v u => launch_child_no_return env args w hf v u, ?_, ?_, by decide, ?_, ?_⟩
  · intro t ts rest e he
    rw [launch_child env t ts rest w hf, he]
    simp [perror, eprint]
  · intro t ts rest he
    rw [launch_child env t ts rest w hf, he]
  · intro t ts rest v u ht
    rw [hexec t ts rest ht]
    exact launch_child_no_return env _ w hf v u
  · intro fuel w0 t ts hA hlen hruns ht hw
    rw [loop_step env hA fuel w0 hlen, hruns, ← hw, hexec t ts _ ht,
      launch_child env t ts _ w hf]
    cases env.execvp { w with trace := w.trace ++ [.fork] } t
        (argv (t :: ts)
          (List.replicate (64 * ((t :: ts).length / 64 + 1) - (t :: ts).length - 1) none)) with
    | none => exact Or.inr ⟨_, _, _, rfl⟩
    | some e => exact Or.inl ⟨_, rfl⟩

set_option maxRecDepth 100000 in
/-- Witness of C14: in a child that cannot execute `nosuch`, `launch` exits
with `EXIT_FAILURE` after the diagnostic, and the loop of the child ends there:
the second line of the input is never read. -/
theorem child_never_returns_witness :
    child_env.fork (world0 []) = .child
      ∧ child_env.execvp { world0 [] with trace := (world0 []).trace ++ [.fork] } "nosuch".toList
          (argv ("nosuch".toList :: ["-x".toList]) []) = some 2
      ∧ launch child_env (argv ("nosuch".toList :: ["-x".toList]) []) (world0 [])
          = .exited EXIT_FAILURE
              { world0 [] with
                stderr := (world0 []).stderr
                  ++ ("lsh: ".toList ++ child_env.strerror 2 ++ "\n".toList),
                errno := 2,
                trace := (world0 []).trace
                  ++ [.fork, .execvp "nosuch".toList
                        (argv ("nosuch".toList :: ["-x".toList]) [])] }
      ∧ loop child_env 5 (world0 "nosuch -x\nls\n".toList)
          = .exited 1
              { stdin := "ls\n".toList, stdout := "> ".toList,
                stderr := "lsh: No such file or directory\n".toList,
                cwd := "/".toList, errno := 2,
                trace := [.fork, .execvp "nosuch".toList
                  (argv ["nosuch".toList, "-x".toList] (List.replicate 61 none))] } :=
  ⟨rfl, rfl,
    (child_never_returns child_env (world0 []) rfl).2.1 "nosuch".toList ["-x".toList] [] 2 rfl,
    by decide⟩

/-- C15, as amended.  The buffer of `read_line` grows by the fixed increment
and every write is in bounds, for every line length `n` below 2147482624 (that
is `2^31 - 1024`, so that the capacity stays in the range of `int`), allocation
succeeding: `read_line` returns with `position = n` and the capacity
`bufsize = 1024 * (n / 1024 + 1)`, which is the number of cells of the block
and is not doubled; the terminator is written at index `n`, below the capacity;
and for every `k ≤ n` the state in which index `k` is written, which is the
state `read_line` ends in when the input stops after `k` characters of the
line, has capacity `1024 * (k / 1024 + 1)`, above `k`.  No store is outside
the block, since the call returns. -/
theorem read_line_capacity (env : Env) (hA : ∀ n, env.alloc n = true) (w : World)
    (hlen : (first_line w.stdin).length < 2147482624) :
    (∃ buffer,
        read_line_state env w
            = .ret ⟨1024 * ((first_line w.stdin).length / 1024 + 1),
                (first_line w.stdin).length, buffer⟩
              { w with stdin := after_line w.stdin }
          ∧ buffer.length = 1024 * ((first_line w.stdin).length / 1024 + 1)
          ∧ load buffer (first_line w.stdin).length = some NUL)
      ∧ (first_line w.stdin).length < 1024 * ((first_line w.stdin).length / 1024 + 1)
      ∧ ∀ k, k ≤ (first_line w.stdin).length →
          (∃ buffer,
            read_line_state env { w with stdin := (first_line w.stdin).take k }
                = .ret ⟨1024 * (k / 1024 + 1), k, buffer⟩ { w with stdin := [] }
              ∧ buffer.length = 1024 * (k / 1024 + 1))
            ∧ k < 1024 * (k / 1024 + 1) := by
  have hstate : ∀ (v : World) (n : Nat), (first_line v.stdin).length = n → n < 2147482624 →
      ∃ buffer,
        read_line_state env v
            = .ret ⟨1024 * (n / 1024 + 1), n, buffer⟩ { v with stdin := after_line v.stdin }
          ∧ buffer.length = 1024 * (n / 1024 + 1) ∧ load buffer n = some NUL := by
    intro v n hn hlt
    subst hn
    refine ⟨_, read_line_state_ok env hA v hlt, ?_, ?_⟩
    · simp only [List.length_append, List.length_map, List.length_replicate, List.length_cons,
        List.length_nil]
      omega
    · unfold load
      rw [List.map_append, List.append_assoc,
        List.get?_eq_getElem?, List.getElem?_append_right (by simp)]
      simp
  refine ⟨hstate w _ rfl hlen, by omega, ?_⟩
  intro k hk
  refine ⟨?_, by omega⟩
  have hnl : '\n' ∉ (first_line w.stdin).take k := fun h =>
    newline_not_mem_takeWhile w.stdin (List.mem_of_mem_take h)
  have hfl := first_line_of_no_newline _ hnl
  have hk2 : ((first_line w.stdin).take k).length = k := by
    rw [List.length_take]; omega
  obtain ⟨buffer, h1, h2, _⟩ := hstate { w with stdin := (first_line w.stdin).take k } k
    (by show (first_line ((first_line w.stdin).take k)).length = k; rw [hfl.1, hk2])
    (by omega)
  refine ⟨buffer, ?_, h2⟩
  rw [h1]
  show Result.ret _ { w with stdin := after_line ((first_line w.stdin).take k) } = _
  rw [hfl.2]

/-- Witness of C15 as amended: after a line of 2048 characters the capacity is
3072, three increments and not the 4096 of two doublings. -/
theorem read_line_capacity_witness :
    (first_line (world0 (List.replicate 2048 'x' ++ "\nls\n".toList)).stdin).length < 2147482624
      ∧ (∃ buffer,
          read_line_state sample_env (world0 (List.replicate 2048 'x' ++ "\nls\n".toList))
              = .ret ⟨1024 *
                    ((first_line (world0 (List.replicate 2048 'x' ++ "\nls\n".toList)).stdin).length
                      / 1024 + 1),
                  (first_line (world0 (List.replicate 2048 'x' ++ "\nls\n".toList)).stdin).length,
                  buffer⟩
                { world0 (List.replicate 2048 'x' ++ "\nls\n".toList) with
                  stdin := after_line (world0 (List.replicate 2048 'x' ++ "\nls\n".toList)).stdin }
            ∧ buffer.length = 1024 *
                ((first_line (world0 (List.replicate 2048 'x' ++ "\nls\n".toList)).stdin).length
                  / 1024 + 1)
            ∧ load buffer
                (first_line (world0 (List.replicate 2048 'x' ++ "\nls\n".toList)).stdin).length
              = some NUL)
      ∧ (first_line (world0 (List.replicate 2048 'x' ++ "\nls\n".toList)).stdin).length = 2048
      ∧ 1024 * (2048 / 1024 + 1) = 3072 := by
  have hx : '\n' ∉ List.replicate 2048 'x' := by
    rw [List.mem_replicate]; decide
  have h := first_line_append_newline (List.replicate 2048 'x') "ls\n".toList hx
  have hl : (first_line (world0 (List.replicate 2048 'x' ++ "\nls\n".toList)).stdin).length
      = 2048 := by
    show (first_line (List.replicate 2048 'x' ++ '\n' :: "ls\n".toList)).length = 2048
    rw [h.1, List.length_replicate]
  have hlen : (first_line (world0 (List.replicate 2048 'x' ++ "\nls\n".toList)).stdin).length
      < 2147482624 := by
    rw [hl]; decide
  exact ⟨hlen, (read_line_capacity sample_env (fun _ => rfl) _ hlen).1, hl, by decide⟩

/-- Counterexample to C15 as stated: the line length 2147482624 is below
`INT_MAX`, but once that many characters are stored the capacity
`1024 * (n / 1024 + 1)` is not a value of `int`: the update
`bufsize += LSH_RL_BUFSIZE` overflows and `read_line` has no capacity to
return with. -/
theorem read_line_capacity_counterexample :
    2147482624 < INT_MAX
      ∧ INT_MAX < 1024 * (2147482624 / 1024 + 1)
      ∧ (first_line (world0 (List.replicate 2147482624 'a')).stdin).length = 2147482624
      ∧ read_line_state sample_env (world0 (List.replicate 2147482624 'a')) = .undefined
      ∧ ¬ ∃ st u, read_line_state sample_env (world0 (List.replicate 2147482624 'a'))
          = .ret st u := by
  have hlen : (first_line (world0 (List.replicate 2147482624 'a')).stdin).length
      = 2147482624 := by
    show (first_line (List.replicate 2147482624 'a')).length = 2147482624
    rw [first_line_replicate, List.length_replicate]
  have hund := read_line_state_overflow sample_env (fun _ => rfl)
    (world0 (List.replicate 2147482624 'a')) (le_of_eq hlen.symm)
  refine ⟨by decide, by decide, hlen, hund, ?_⟩
  rintro ⟨st, u, h⟩
  rw [hund] at h
  exact Result.noConfusion h

/-- C16.  The token array of `split_line` grows by the fixed increment and is
never capped, for every line the program passes to `split_line` (`received`:
a C string that `read_line` returned), allocation succeeding.  With `k` the
number of tokens of the line, `split_line` returns with `position = k` and the
capacity `bufsize = 64 * (k / 64 + 1)`, which is the number of cells of the
block; the block holds all `k` tokens at the indices below `k` and the
sentinel at index `k`, below the capacity; and for every `j ≤ k` the state in
which index `j` is written, which is the state `split_line` ends in on the
first `j` tokens, has capacity `64 * (j / 64 + 1)`, above `j`.  No store is
outside the block, since the call returns. -/
theorem split_line_capacity (env : Env) (hA : ∀ n, env.alloc n = true) (line : CStr)
    (w : World) (hline : received line) :
    (∃ tokens,
        split_line_state env line w
            = .ret ⟨64 * ((maximal_runs line).length / 64 + 1), (maximal_runs line).length,
                tokens⟩ w
          ∧ tokens.length = 64 * ((maximal_runs line).length / 64 + 1)
          ∧ load tokens (maximal_runs line).length = some none
          ∧ ∀ i, i < (maximal_runs line).length →
              load tokens i = some ((maximal_runs line).get? i))
      ∧ (maximal_runs line).length < 64 * ((maximal_runs line).length / 64 + 1)
      ∧ ∀ j, j ≤ (maximal_runs line).length →
          (∃ tokens,
            split_line_state env (List.intercalate [' '] ((maximal_runs line).take j)) w
                = .ret ⟨64 * (j / 64 + 1), j, tokens⟩ w
              ∧ tokens.length = 64 * (j / 64 + 1))
            ∧ j < 64 * (j / 64 + 1) := by
  have hk := received_runs_lt line hline
  have hstate : ∀ (l : CStr) (n : Nat), (maximal_runs l).length = n → n < 2147483584 →
      ∃ tokens,
        split_line_state env l w = .ret ⟨64 * (n / 64 + 1), n, tokens⟩ w
          ∧ tokens.length = 64 * (n / 64 + 1)
          ∧ load tokens n = some none
          ∧ ∀ i, i < n → load tokens i = some ((maximal_runs l).get? i) := by
    intro l n hn hlt
    subst hn
    refine ⟨_, split_line_state_ok env hA l w hlt, ?_, ?_, ?_⟩
    · simp only [argv, List.length_append, List.length_map, List.length_replicate,
        List.length_cons]
      omega
    · unfold load argv
      rw [List.get?_eq_getElem?, List.getElem?_append_right (by simp)]
      simp
    · intro i hi
      unfold load argv
      rw [List.get?_eq_getElem?, List.getElem?_append_left (by simpa using hi)]
      simp [List.getElem?_eq_getElem hi]
  refine ⟨hstate line _ rfl hk, by omega, ?_⟩
  intro j hj
  refine ⟨?_, by omega⟩
  have hruns : maximal_runs (List.intercalate [' '] ((maximal_runs line).take j))
      = (maximal_runs line).take j :=
    maximal_runs_intercalate _ (fun t ht => maximal_runs_mem line t (List.mem_of_mem_take ht))
  obtain ⟨tokens, h1, h2, _⟩ := hstate (List.intercalate [' '] ((maximal_runs line).take j)) j
    (by rw [hruns, List.length_take]; omega) (by omega)
  exact ⟨tokens, h1, h2⟩

set_option maxRecDepth 100000 in
/-- Witness of C16: the line of 64 tokens is one `read_line` returns, and it
ends with capacity 128; 63 tokens end with capacity 64, 130 tokens with
capacity 192. -/
theorem split_line_capacity_witness :
    (received (many_tokens 64)
      ∧ ∃ tokens,
          split_line_state sample_env (many_tokens 64) (world0 [])
              = .ret ⟨64 * ((maximal_runs (many_tokens 64)).length / 64 + 1),
                  (maximal_runs (many_tokens 64)).length, tokens⟩ (world0 [])
            ∧ tokens.length = 64 * ((maximal_runs (many_tokens 64)).length / 64 + 1)
            ∧ load tokens (maximal_runs (many_tokens 64)).length = some none
            ∧ ∀ i, i < (maximal_runs (many_tokens 64)).length →
                load tokens i = some ((maximal_runs (many_tokens 64)).get? i))
      ∧ (maximal_runs (many_tokens 64)).length = 64
      ∧ 64 * (63 / 64 + 1) = 64 ∧ 64 * (64 / 64 + 1) = 128 ∧ 64 * (130 / 64 + 1) = 192 := by
  have hl : (maximal_runs (many_tokens 64)).length = 64 := by
    rw [maximal_runs_many_tokens, List.length_replicate]
  have hr : received (many_tokens 64) :=
    received_of_short _ (by decide) (by decide) (by decide)
  exact ⟨⟨hr, (split_line_capacity sample_env (fun _ => rfl) _ (world0 []) hr).1⟩, hl,
    by decide, by decide, by decide⟩

/-- C18.  Only `cd` can change the working directory of the interpreter: for
every argument vector whose first token is not `cd`, whenever `execute`
returns, the working directory is the one before the call; and `execute` does
return on the empty vector, on `help`, on `exit`, and on an external command
as soon as process creation failed or the child reported an exited or signaled
status, whatever that status is. -/
theorem only_cd_changes_cwd (env : Env) (ts : List CStr) (rest : Mem CharPtr) (w : World)
    (hcd : ts.head? ≠ some "cd".toList) :
    (∀ v u, execute env (argv ts rest) w = .ret v u → u.cwd = w.cwd)
      ∧ ((ts = [] ∨ ts.head? = some "help".toList ∨ ts.head? = some "exit".toList
            ∨ parent_resumes (env.fork w) = true) →
          ∃ v u, execute env (argv ts rest) w = .ret v u ∧ u.cwd = w.cwd) := by
  have hframe : ∀ v u, execute env (argv ts rest) w = .ret v u → u.cwd = w.cwd := by
    intro v u h
    rcases execute_ret env ts rest w v u h with ⟨_, _, hw⟩ | ⟨_, _, _, hc⟩
    · rw [hw]
    · exact hc hcd
  refine ⟨hframe, ?_⟩
  intro h
  obtain ⟨v, u, hu⟩ := execute_returns env ts rest w (by
    rcases h with h | h | h | h
    · exact Or.inl h
    · exact Or.inr (Or.inr (Or.inl h))
    · exact Or.inr (Or.inr (Or.inr (Or.inl h)))
    · exact Or.inr (Or.inr (Or.inr (Or.inr h))))
  exact ⟨v, u, hu, hframe v u hu⟩

/-- Witness of C18: `ls` in `/`, whose child exits, leaves the interpreter in
`/`; so do `help`, `exit` and the empty vector. -/
theorem only_cd_changes_cwd_witness :
    ((["ls".toList, "/tmp".toList] : List CStr).head? ≠ some "cd".toList
      ∧ (parent_resumes (sample_env.fork (world0 [])) = true)
      ∧ ∃ v u, execute sample_env (argv ["ls".toList, "/tmp".toList] []) (world0 []) = .ret v u
          ∧ u.cwd = (world0 []).cwd)
    ∧ (∃ v u, execute sample_env (argv ["help".toList] []) (world0 []) = .ret v u
          ∧ u.cwd = (world0 []).cwd)
    ∧ (∃ v u, execute sample_env (argv ["exit".toList] []) (world0 []) = .ret v u
          ∧ u.cwd = (world0 []).cwd)
    ∧ (∃ v u, execute sample_env (argv [] []) (world0 []) = .ret v u
          ∧ u.cwd = (world0 []).cwd) :=
  ⟨⟨by decide, rfl,
      (only_cd_changes_cwd sample_env ["ls".toList, "/tmp".toList] [] (world0 [])
        (by decide)).2 (Or.inr (Or.inr (Or.inr rfl)))⟩,
    (only_cd_changes_cwd sample_env ["help".toList] [] (world0 []) (by decide)).2
      (Or.inr (Or.inl rfl)),
    (only_cd_changes_cwd sample_env ["exit".toList] [] (world0 []) (by decide)).2
      (Or.inr (Or.inr (Or.inl rfl))),
    (only_cd_changes_cwd sample_env [] [] (world0 []) (by decide)).2 (Or.inl rfl)⟩

end Lsh
